import Mathlib

/-!
Verification of the day-17 shortest-path module (`src/puzzles/d17.rs`):
a grid of digit costs, a backward-Dijkstra heuristic precomputation, and
a generic A* search engine parameterized by two movement policies
(`Crucible`, bounded run, and `UltraCrucible`, minimum run with cap).

Machine integers (`u8`, `u32`, `usize`) are modelled as `Nat`.  The value
`u32::MAX`, used by the source only as the "infinite / unreached" sentinel
of the heuristic table, is modelled as `none : Option Nat` (the sentinel is
never the subject of arithmetic in any run whose costs stay below `2^32`).
-/

set_option maxHeartbeats 1600000
set_option maxRecDepth 8000

namespace Aoc23D17

/-- Compass direction (`Direction` in d17.rs). -/
inductive Direction
  | North
  | East
  | South
  | West
deriving DecidableEq, Repr

namespace Direction

/-- Column delta of a direction (`Direction::dx`). -/
def dx : Direction → Int
  | North => 0
  | South => 0
  | East => 1
  | West => -1

/-- Row delta of a direction (`Direction::dy`). -/
def dy : Direction → Int
  | East => 0
  | West => 0
  | North => -1
  | South => 1

/-- The 180-degree opposite (`Direction::opposite`). -/
def opposite : Direction → Direction
  | North => South
  | East => West
  | South => North
  | West => East

/-- Rank of a direction in the Rust `derive(Ord)` order
North < East < South < West. -/
def rank : Direction → Nat
  | North => 0
  | East => 1
  | South => 2
  | West => 3

end Direction

/-- A grid position `(row, col)` (`(usize, usize)` in the source). -/
abbrev Pos := Nat × Nat

/-- The flat 2-dimensional array `ndarray::Array2<u8>` holding the grid of
cell entry costs, row-major. -/
structure GridA where
  height : Nat
  width : Nat
  data : List Nat
deriving DecidableEq, Repr

namespace GridA

/-- Indexing `grid[(r, c)]`; row-major flat index. -/
def get (g : GridA) (p : Pos) : Nat :=
  g.data.getD (p.1 * g.width + p.2) 0

/-- Well-formed digit grid: non-empty rectangle of digit costs. -/
def WF (g : GridA) : Prop :=
  1 ≤ g.height ∧ 1 ≤ g.width ∧ g.data.length = g.height * g.width ∧
    ∀ x ∈ g.data, x ≤ 9

end GridA

/-- The `Map` struct of d17.rs: the digit grid plus the precomputed
heuristic table (`heur_cost_to_target : Array2<u32>`, modelled with
`none` for the `u32::MAX` sentinel). -/
structure Map where
  grid : GridA
  heur_cost_to_target : List (Option Nat)
deriving Repr

namespace Map

/-- Index into the heuristic table at a position. -/
def heurAt (m : Map) (p : Pos) : Option Nat :=
  m.heur_cost_to_target.getD (p.1 * m.grid.width + p.2) none

/-- The target position, bottom-right corner (`Map::target`). -/
def target (m : Map) : Pos :=
  (m.grid.height - 1, m.grid.width - 1)

/-- Bounds-checked neighbour lookup (`Map::get_neighbour_pos`): the cell one
step in `direction` from `pos`, or `none` when that leaves the grid. -/
def get_neighbour_pos (m : Map) (pos : Pos) (direction : Direction) :
    Option Pos :=
  let ipos : Int × Int := ((pos.1 : Int), (pos.2 : Int))
  let iheight : Int := (m.grid.height : Int)
  let iwidth : Int := (m.grid.width : Int)
  let np : Int × Int := (ipos.1 + direction.dy, ipos.2 + direction.dx)
  if np.1 < 0 ∨ np.2 < 0 ∨ np.1 ≥ iheight ∨ np.2 ≥ iwidth then
    none
  else
    some (np.1.toNat, np.2.toNat)

end Map

/-- Bounded-run search node (`Crucible`): position, travel direction, and
how many more steps are allowed in that direction. -/
structure Crucible where
  pos : Pos
  direction : Direction
  remaining_steps : Nat
deriving DecidableEq, Repr

/-- Minimum-run-with-cap search node (`UltraCrucible`): position, travel
direction, and how many consecutive steps in that direction were already
performed. -/
structure UltraCrucible where
  pos : Pos
  direction : Direction
  consecutive_steps : Nat
deriving DecidableEq, Repr

namespace Crucible

/-- `<Crucible as Node>::new`. -/
def new (start_pos : Pos) (start_direction : Direction) : Crucible :=
  ⟨start_pos, start_direction, 3⟩

/-- `<Crucible as Node>::can_stop`: always true. -/
def can_stop (_ : Crucible) : Bool := true

/-- `<Crucible as Node>::make_step`. -/
def make_step (c : Crucible) (m : Map) (direction : Direction) :
    Option Crucible :=
  match m.get_neighbour_pos c.pos direction with
  | none => none
  | some neighbour_pos =>
    if c.direction = direction.opposite then
      none
    else if c.direction = direction ∧ c.remaining_steps = 0 then
      none
    else
      let remaining_steps :=
        if c.direction = direction then c.remaining_steps - 1 else 2
      some ⟨neighbour_pos, direction, remaining_steps⟩

/-- `<Crucible as Node>::heuristic`. -/
def heuristic (c : Crucible) (m : Map) : Option Nat :=
  m.heurAt c.pos

/-- Rust `derive(Ord)` comparison on `Crucible`
(lexicographic on pos, direction, remaining_steps). -/
def cmp (a b : Crucible) : Ordering :=
  (compare a.pos.1 b.pos.1).then <| (compare a.pos.2 b.pos.2).then <|
    (compare a.direction.rank b.direction.rank).then
      (compare a.remaining_steps b.remaining_steps)

end Crucible

namespace UltraCrucible

/-- `<UltraCrucible as Node>::new`. -/
def new (start_pos : Pos) (start_direction : Direction) : UltraCrucible :=
  ⟨start_pos, start_direction, 0⟩

/-- `<UltraCrucible as Node>::can_stop`: only after a run of at least 4. -/
def can_stop (u : UltraCrucible) : Bool := 4 ≤ u.consecutive_steps

/-- `<UltraCrucible as Node>::make_step`. -/
def make_step (u : UltraCrucible) (m : Map) (direction : Direction) :
    Option UltraCrucible :=
  match m.get_neighbour_pos u.pos direction with
  | none => none
  | some neighbour_pos =>
    if u.direction = direction.opposite then
      none
    else if u.direction = direction ∧ 10 ≤ u.consecutive_steps ∧
        u.consecutive_steps ≠ 0 then
      none
    else if u.direction ≠ direction ∧ u.consecutive_steps < 4 ∧
        u.consecutive_steps ≠ 0 then
      none
    else
      let consecutive_steps :=
        if u.direction = direction then u.consecutive_steps + 1 else 1
      some ⟨neighbour_pos, direction, consecutive_steps⟩

/-- `<UltraCrucible as Node>::heuristic`. -/
def heuristic (u : UltraCrucible) (m : Map) : Option Nat :=
  m.heurAt u.pos

/-- Rust `derive(Ord)` comparison on `UltraCrucible`. -/
def cmp (a b : UltraCrucible) : Ordering :=
  (compare a.pos.1 b.pos.1).then <| (compare a.pos.2 b.pos.2).then <|
    (compare a.direction.rank b.direction.rank).then
      (compare a.consecutive_steps b.consecutive_steps)

end UltraCrucible

/-- List of all four directions, in the order used by
`Node::get_all_neighbours`. -/
def Direction.all : List Direction :=
  [.North, .East, .South, .West]

/-- Comparison of `u32` cost values in the `Option Nat` model: `none`
(the `u32::MAX` sentinel) is the largest value. -/
def cmpONat : Option Nat → Option Nat → Ordering
  | none, none => .eq
  | none, some _ => .gt
  | some _, none => .lt
  | some a, some b => compare a b

/-- The "less or equal" reading of `cmpONat`: `none` (`u32::MAX`) is the
top element. -/
def oLE : Option Nat → Option Nat → Prop
  | _, none => True
  | none, some _ => False
  | some a, some b => a ≤ b

/-- First key-value association lookup (`FxHashMap::get`). -/
def alookup [DecidableEq α] : List (α × β) → α → Option β
  | [], _ => none
  | (k, v) :: l, a => if k = a then some v else alookup l a

/-- Key-value association insert-or-replace (`FxHashMap::insert`). -/
def ainsert [DecidableEq α] : List (α × β) → α → β → List (α × β)
  | [], a, b => [(a, b)]
  | (k, v) :: l, a, b => if k = a then (a, b) :: l else (k, v) :: ainsert l a b

/-- The least element of `b :: l` with respect to comparison `c`
(earliest occurrence among equals). -/
def listMinBy (c : β → β → Ordering) : β → List β → β
  | b, [] => b
  | b, x :: xs => listMinBy c (if c x b = .lt then x else b) xs

/-- Pop a minimal element (`BinaryHeap::pop` on `Reverse`-wrapped entries):
returns the least entry under `c` together with the rest of the collection.
A binary heap yields entries in exactly this order, since the orders used
here are total and the heap's contents are a multiset. -/
def popMin [DecidableEq β] (c : β → β → Ordering) (l : List β) :
    Option (β × List β) :=
  match l with
  | [] => none
  | x :: xs =>
    let mn := listMinBy c x xs
    some (mn, (x :: xs).erase mn)

/-- The pluggable movement-policy interface (`trait Node` in d17.rs).
`cmp` is the Rust `derive(Ord)` total order used for heap tie-breaking,
and `univAll` enumerates a finite superset of all nodes the policy can
ever produce (used to size the search fuel). -/
class SearchNode (α : Type) [DecidableEq α] where
  new : Pos → Direction → α
  pos : α → Pos
  can_stop : α → Bool
  make_step : α → Map → Direction → Option α
  heuristic : α → Map → Option Nat
  cmp : α → α → Ordering
  univAll : Map → List α

/-- Default method `Node::get_all_neighbours`: one candidate per compass
direction, in the order North, East, South, West. -/
def get_all_neighbours [DecidableEq α] [SearchNode α] (n : α) (m : Map) :
    List (Option α) :=
  [SearchNode.make_step n m .North, SearchNode.make_step n m .East,
   SearchNode.make_step n m .South, SearchNode.make_step n m .West]

/-- A frontier entry: (priority = cost + heuristic, accumulated cost, node).
The first component is `Option Nat` because the heuristic table models
`u32::MAX` as `none`. -/
abbrev Entry (α : Type) := Option Nat × Nat × α

/-- Lexicographic comparison of frontier entries, matching the Rust tuple
order `(u32, u32, T)` used in the binary heap. -/
def cmpEntry [DecidableEq α] [SearchNode α] (a b : Entry α) : Ordering :=
  (cmpONat a.1 b.1).then <| (compare a.2.1 b.2.1).then
    (SearchNode.cmp a.2.2 b.2.2)

/-- The mutable state of one A* search: `visited`, `frontier`, `best_cost`.
`visited` is a hash set, modelled as a list considered up to membership. -/
structure SState (α : Type) where
  visited : List α
  frontier : List (Entry α)
  best_cost : List (α × Nat)

/-- The outcome of one iteration of the search loop: either the loop
terminates with a result, or continues in a new state. -/
inductive StepResult (α : Type)
  | done (res : Option Nat)
  | next (s : SState α)

/-- Processing of a single candidate neighbour inside the expansion loop of
`Map::cheapest_path_cost`: skip it when already visited or when a cost at
least as good is recorded, otherwise record the new best cost and push a
frontier entry. -/
def processNeighbour [DecidableEq α] [SearchNode α] (m : Map)
    (visited : List α) (cost : Nat) (fb : List (Entry α) × List (α × Nat))
    (neighbour : α) : List (Entry α) × List (α × Nat) :=
  if neighbour ∈ visited then
    fb
  else
    let neighbour_cost := cost + m.grid.get (SearchNode.pos neighbour)
    match alookup fb.2 neighbour with
    | some c =>
      if c ≤ neighbour_cost then
        fb
      else
        ((Option.map (neighbour_cost + ·) (SearchNode.heuristic neighbour m),
            neighbour_cost, neighbour) :: fb.1,
          ainsert fb.2 neighbour neighbour_cost)
    | none =>
      ((Option.map (neighbour_cost + ·) (SearchNode.heuristic neighbour m),
          neighbour_cost, neighbour) :: fb.1,
        ainsert fb.2 neighbour neighbour_cost)

/-- One iteration of the `while let` loop of `Map::cheapest_path_cost`:
pop a minimal frontier entry; return its cost if it is an acceptable
terminal node; otherwise expand its neighbours and mark it visited. -/
def stepOnce [DecidableEq α] [SearchNode α] (m : Map) (s : SState α) :
    StepResult α :=
  match popMin cmpEntry s.frontier with
  | none => .done none
  | some ((_, cost, node), rest) =>
    if SearchNode.pos node = m.target ∧ SearchNode.can_stop node = true then
      .done (some cost)
    else
      let fb := ((get_all_neighbours node m).reduceOption).foldl
        (processNeighbour m s.visited cost) (rest, s.best_cost)
      .next ⟨node :: s.visited, fb.1, fb.2⟩

/-- The search loop of `Map::cheapest_path_cost`, with explicit fuel.
The Rust loop runs until the frontier empties or a result is returned;
`searchFuel` below is provably enough for the loop never to exhaust its
fuel, so the `none` (out-of-fuel) outcome never occurs. -/
def searchLoop [DecidableEq α] [SearchNode α] (m : Map) :
    Nat → SState α → Option (Option Nat)
  | 0, _ => none
  | fuel + 1, s =>
    match stepOnce m s with
    | .done r => some r
    | .next s' => searchLoop m fuel s'

/-- The initial search state: the policy's start node at `(0, 0)` facing
South, with cost 0 and priority equal to its heuristic value. -/
def initState [DecidableEq α] (inst : SearchNode α) (m : Map) : SState α :=
  ⟨[], [(m.heurAt (0, 0), 0, SearchNode.new (0, 0) .South)],
    [(SearchNode.new (0, 0) .South, 0)]⟩

/-- Fuel sufficient for the whole search: every iteration pops one entry,
and entries are pushed at most four times per node of the finite universe
(plus the initial entry). -/
def searchFuel [DecidableEq α] (inst : SearchNode α) (m : Map) : Nat :=
  5 * (SearchNode.univAll (α := α) m).length + 2

/-- `Map::cheapest_path_cost`: A* over the nodes of policy `α`. -/
def cheapest_path_cost (α : Type) [DecidableEq α] [inst : SearchNode α]
    (m : Map) : Option Nat :=
  (searchLoop m (searchFuel inst m) (initState inst m)).join

/-- A state after `k` iterations of the search loop (identity once the
loop has terminated); used to examine intermediate loop states. -/
def runSteps [DecidableEq α] [SearchNode α] (m : Map) :
    Nat → SState α → SState α
  | 0, s => s
  | k + 1, s =>
    match stepOnce m s with
    | .done _ => s
    | .next s' => runSteps m k s'

/-- Number of loop iterations, within the first `fuel`, that expand a node
that is already in the visited set (the popped entry is not an accepted
terminal and its node is already a member of `visited`, yet the iteration
still runs the neighbour expansion). -/
def staleExpansions [DecidableEq α] [SearchNode α] (m : Map) :
    Nat → SState α → Nat
  | 0, _ => 0
  | k + 1, s =>
    match stepOnce m s with
    | .done _ => 0
    | .next s' =>
      (match popMin cmpEntry s.frontier with
       | some ((_, _, n), _) => if n ∈ s.visited then 1 else 0
       | none => 0) + staleExpansions m k s'

/-- Row-major flat index of a position. -/
def GridA.idx (g : GridA) (p : Pos) : Nat :=
  p.1 * g.width + p.2

/-- Position strictly inside the grid. -/
def GridA.inB (g : GridA) (p : Pos) : Prop :=
  p.1 < g.height ∧ p.2 < g.width

/-- The bottom-right corner of a grid. -/
def gTarget (g : GridA) : Pos :=
  (g.height - 1, g.width - 1)

/-- Read the cost table at a position. -/
def loAt (g : GridA) (lo : List (Option Nat)) (p : Pos) : Option Nat :=
  lo.getD (g.idx p) none

/-- Read the visited table at a position. -/
def visAt (g : GridA) (vis : List Bool) (p : Pos) : Bool :=
  vis.getD (g.idx p) false

section HeuristicDijkstra

/-- The relative moves tried by `Map::find_lowest_cost_to_target`, in
source order: `[(1, 0), (0, -1), (-1, 0), (0, 1)]`. -/
def hMoves : List (Int × Int) :=
  [(1, 0), (0, -1), (-1, 0), (0, 1)]

/-- State of the backward Dijkstra of `Map::find_lowest_cost_to_target`:
the cost table (`u32::MAX` as `none`), the visited flags, and the frontier
of `(cost, position)` entries. -/
structure HState where
  lowest_cost : List (Option Nat)
  visitedH : List Bool
  frontierH : List (Option Nat × Pos)

/-- Entry comparison for the heuristic Dijkstra's heap: Rust tuple order
on `(u32, (usize, usize))`. -/
def cmpHEntry (a b : Option Nat × Pos) : Ordering :=
  (cmpONat a.1 b.1).then <| (compare a.2.1 b.2.1).then (compare a.2.2 b.2.2)

/-- The two bounds checks of the relaxation loop in
`Map::find_lowest_cost_to_target`: the cell one `mv` away from `p`, or
`none` when that leaves the grid. -/
def shiftPosIn (g : GridA) (p : Pos) (mv : Int × Int) : Option Pos :=
  let iy : Int := (p.1 : Int) + mv.1
  let ix : Int := (p.2 : Int) + mv.2
  if iy < 0 ∨ ix < 0 then
    none
  else
    let nb : Pos := (iy.toNat, ix.toNat)
    if g.height ≤ nb.1 ∨ g.width ≤ nb.2 then
      none
    else
      some nb

/-- Relaxation of one neighbour of `pos` inside
`Map::find_lowest_cost_to_target`: skip an off-grid move (the source's two
`continue` checks, folded into `shiftPosIn`); otherwise lower the
neighbour's table entry to `cost + grid[pos]` when that improves it, then
push the (possibly updated) table entry. -/
def hRelax (g : GridA) (pos : Pos) (cost : Option Nat)
    (s : List (Option Nat) × List (Option Nat × Pos)) (move : Int × Int) :
    List (Option Nat) × List (Option Nat × Pos) :=
  match shiftPosIn g pos move with
  | none => s
  | some nb =>
    let neighbour_cost := Option.map (· + g.get pos) cost
    let lo :=
      if cmpONat neighbour_cost (s.1.getD (g.idx nb) none) = .lt then
        s.1.set (g.idx nb) neighbour_cost
      else s.1
    (lo, (lo.getD (g.idx nb) none, nb) :: s.2)

/-- One iteration of the `while let` loop of
`Map::find_lowest_cost_to_target`: pop a minimal entry, skip it if its
position is already finalized, otherwise relax its neighbours and mark it
visited. -/
def hStepOnce (g : GridA) (s : HState) : Option HState :=
  match popMin cmpHEntry s.frontierH with
  | none => none
  | some ((cost, pos), rest) =>
    if s.visitedH.getD (g.idx pos) false then
      some ⟨s.lowest_cost, s.visitedH, rest⟩
    else
      let (lo, fr) := hMoves.foldl (hRelax g pos cost) (s.lowest_cost, rest)
      some ⟨lo, s.visitedH.set (g.idx pos) true, fr⟩

/-- The loop of `Map::find_lowest_cost_to_target`, with explicit fuel
(`hFuel` below is provably sufficient). -/
def hLoop (g : GridA) : Nat → HState → List (Option Nat)
  | 0, s => s.lowest_cost
  | fuel + 1, s =>
    match hStepOnce g s with
    | none => s.lowest_cost
    | some s' => hLoop g fuel s'

/-- Fuel sufficient for the heuristic Dijkstra loop. -/
def hFuel (g : GridA) : Nat :=
  5 * (g.height * g.width) + 2

/-- The initial state of `Map::find_lowest_cost_to_target`: all table
entries at the `u32::MAX` sentinel except the target at 0, and the target
on the frontier at cost 0. -/
def hInit (g : GridA) : HState :=
  ⟨((List.replicate (g.height * g.width) (none : Option Nat)).set
      (g.idx (gTarget g)) (some 0)),
    List.replicate (g.height * g.width) false,
    [(some 0, gTarget g)]⟩

/-- Termination measure of the heuristic Dijkstra loop: every iteration
strictly decreases it. -/
def hPhi (s : HState) : Nat :=
  s.frontierH.length + 5 * s.visitedH.count false

/-- `Map::find_lowest_cost_to_target`: the shortest cost from every cell to
the bottom-right corner ignoring movement constraints, by a backward
Dijkstra. Unreached cells keep the `u32::MAX` sentinel (`none`). -/
def findLowestCostToTarget (g : GridA) : List (Option Nat) :=
  hLoop g (hFuel g) (hInit g)

/-- Build a `Map` from its grid, computing the heuristic table exactly as
the `FromStr` implementation does. -/
def Map.ofGrid (g : GridA) : Map :=
  ⟨g, findLowestCostToTarget g⟩

end HeuristicDijkstra

section Parsing

/-- Outcome of `Map::from_str`. `crashed` models a Rust panic (the division
`linear_grid.len() / width` with `width = 0` on inputs whose first line is
empty); `reshapeErr` models the `Err` returned when `into_shape` fails
because the element count does not match `height * width`. -/
inductive ParseOutcome
  | crashed
  | reshapeErr
  | ok (m : Map)

/-- `Map::from_str`, on the byte sequence of the input string. `width` is
the index of the first newline (or the length if none); the flat grid data
is every non-newline byte minus `b'0'` (modelled with the wrap-around of a
release-mode `u8` subtraction); `into_shape` succeeds exactly when the
element count equals `height * width` with `height = len / width`. -/
def Map.from_str (s : List Nat) : ParseOutcome :=
  let width := (s.findIdx? (· = 10)).getD s.length
  let linear_grid := (s.filter (· ≠ 10)).map (fun b => (b + 208) % 256)
  if width = 0 then
    .crashed
  else
    let height := linear_grid.length / width
    if linear_grid.length = height * width then
      .ok (Map.ofGrid ⟨height, width, linear_grid⟩)
    else
      .reshapeErr

/-- The byte sequence of a list of lines joined by newlines (how a
well-formed grid input is laid out). -/
def joinLines (lines : List (List Nat)) : List Nat :=
  (lines.map (· ++ [10])).flatten

/-- A well-formed textual grid input: at least one line, all lines of equal
positive length, every byte an ASCII digit. -/
def WFInput (lines : List (List Nat)) : Prop :=
  lines ≠ [] ∧ (∀ l ∈ lines, l.length = (lines.headI).length) ∧
    (lines.headI).length ≠ 0 ∧
    ∀ l ∈ lines, ∀ b ∈ l, 48 ≤ b ∧ b ≤ 57

end Parsing

section Universes

/-- All bounded-run nodes whose position is within (one past) the grid and
whose counter is at most 3: a finite universe closed under `make_step` and
containing the start node. -/
def Crucible.univList (m : Map) : List Crucible :=
  (List.range (m.grid.height + 1)).flatMap fun r =>
    (List.range (m.grid.width + 1)).flatMap fun c =>
      Direction.all.flatMap fun d =>
        (List.range 4).map fun k => ⟨(r, c), d, k⟩

/-- All minimum-run nodes whose position is within (one past) the grid and
whose counter is at most 10. -/
def UltraCrucible.univList (m : Map) : List UltraCrucible :=
  (List.range (m.grid.height + 1)).flatMap fun r =>
    (List.range (m.grid.width + 1)).flatMap fun c =>
      Direction.all.flatMap fun d =>
        (List.range 11).map fun k => ⟨(r, c), d, k⟩

instance : SearchNode Crucible where
  new := Crucible.new
  pos := Crucible.pos
  can_stop := Crucible.can_stop
  make_step := Crucible.make_step
  heuristic := Crucible.heuristic
  cmp := Crucible.cmp
  univAll := Crucible.univList

instance : SearchNode UltraCrucible where
  new := UltraCrucible.new
  pos := UltraCrucible.pos
  can_stop := UltraCrucible.can_stop
  make_step := UltraCrucible.make_step
  heuristic := UltraCrucible.heuristic
  cmp := UltraCrucible.cmp
  univAll := UltraCrucible.univList

/-- `Map::cheapest_path_cost_normal` (bounded-run policy, part one). -/
def Map.cheapest_path_cost_normal (m : Map) : Option Nat :=
  cheapest_path_cost Crucible m

/-- `Map::cheapest_path_cost_ultra` (minimum-run-with-cap policy). -/
def Map.cheapest_path_cost_ultra (m : Map) : Option Nat :=
  cheapest_path_cost UltraCrucible m

end Universes

section PathPredicates

/-- Legal-walk predicate of a movement policy: `StepsFrom m n₀ n c` holds
when some sequence of `make_step` moves leads from node `n₀` to node `n`
with total cost `c` (the sum of the grid entry costs of the cells entered,
the start cell excluded). -/
inductive StepsFrom [DecidableEq α] [SearchNode α] (m : Map) (n₀ : α) :
    α → Nat → Prop
  | refl : StepsFrom m n₀ n₀ 0
  | tail {n c d n'} : StepsFrom m n₀ n c → SearchNode.make_step n m d = some n' →
      StepsFrom m n₀ n' (c + m.grid.get (SearchNode.pos n'))

/-- A legal path from the start of the search (the policy's initial node at
the top-left corner). -/
def ReachCost [DecidableEq α] [SearchNode α] (m : Map) (n : α) (c : Nat) :
    Prop :=
  StepsFrom m (SearchNode.new (0, 0) .South) n c

/-- The set of total costs of legal paths from the start to an acceptable
terminal node (position at the bottom-right corner, `can_stop` true). -/
def GoalCosts (α : Type) [DecidableEq α] [SearchNode α] (m : Map) :
    Set Nat :=
  {c | ∃ n : α, ReachCost m n c ∧ SearchNode.pos n = m.target ∧
    SearchNode.can_stop n = true}

/-- Unconstrained 4-neighbour adjacency between grid cells: `q` is directly
reachable from `p` by one of the four unit moves and lies in bounds (the
in-bounds side condition on `q` is the one checked by the backward
Dijkstra; `p` ranges over cells already on its frontier). -/
def Adjacent (g : GridA) (p q : Pos) : Prop :=
  (q.1 < g.height ∧ q.2 < g.width) ∧
    ((q.1 = p.1 + 1 ∧ q.2 = p.2) ∨ (p.1 = q.1 + 1 ∧ q.2 = p.2) ∨
     (q.1 = p.1 ∧ q.2 = p.2 + 1) ∨ (q.1 = p.1 ∧ p.2 = q.2 + 1))

/-- Cost of unconstrained backward walks: `HReach g p c` holds when a
4-neighbour walk from the bottom-right corner reaches `p` at cost `c`,
each step `x → y` costing `grid[x]` (equivalently: a forward walk `p → …
→ target` paying the entry cost of every cell entered). -/
inductive HReach (g : GridA) : Pos → Nat → Prop
  | init : HReach g (g.height - 1, g.width - 1) 0
  | step {p c q} : HReach g p c → Adjacent g p q → HReach g q (c + g.get p)

/-- Cost of unconstrained forward walks from a cell to the bottom-right
corner, paying the entry cost of every cell entered (start excluded): the
spec-side notion of unconstrained cost to target. -/
inductive UPath (g : GridA) : Pos → Nat → Prop
  | here : UPath g (g.height - 1, g.width - 1) 0
  | step {p q c} : Adjacent g q p → UPath g q c → UPath g p (c + g.get q)

end PathPredicates

section ProofApparatus

/-- Loop invariant of the backward Dijkstra `Map::find_lowest_cost_to_target`
(all statements range over in-bounds positions; `HReach g p c` is the cost
of an unconstrained walk from the bottom-right corner to `p`):
finalized cells hold the exact shortest cost and have all their outgoing
edges relaxed; every frontier entry carries a realizable cost no smaller
than the cell's table entry; every discovered unfinalized cell has a
frontier entry at its current table value; table entries are realizable;
and the target's entry is 0. -/
structure HInv (g : GridA) (s : HState) : Prop where
  lolen : s.lowest_cost.length = g.height * g.width
  vislen : s.visitedH.length = g.height * g.width
  vis_dist : ∀ p, g.inB p → visAt g s.visitedH p = true →
    ∃ b, loAt g s.lowest_cost p = some b ∧ IsLeast {c | HReach g p c} b
  vis_relax : ∀ p, g.inB p → visAt g s.visitedH p = true →
    ∀ q, Adjacent g p q → ∃ b' bp, loAt g s.lowest_cost q = some b' ∧
      loAt g s.lowest_cost p = some bp ∧ b' ≤ bp + g.get p
  fr_entry : ∀ e ∈ s.frontierH, ∃ c b, e.1 = some c ∧ g.inB e.2 ∧
    HReach g e.2 c ∧ loAt g s.lowest_cost e.2 = some b ∧ b ≤ c
  fr_cover : ∀ p, g.inB p → visAt g s.visitedH p = false →
    ∀ b, loAt g s.lowest_cost p = some b → (some b, p) ∈ s.frontierH
  lo_sound : ∀ p, g.inB p → ∀ b, loAt g s.lowest_cost p = some b →
    HReach g p b
  lo_t : loAt g s.lowest_cost (gTarget g) = some 0

/-- Intermediate invariant of the relaxation fold inside one expansion of
the backward Dijkstra, relative to the pre-expansion state `s0` and the
popped cell `p0` with exact cost `c0`. -/
structure HMid (g : GridA) (s0 : HState) (p0 : Pos) (c0 : Nat)
    (lo : List (Option Nat)) (fr : List (Option Nat × Pos)) : Prop where
  len : lo.length = g.height * g.width
  sound : ∀ p, g.inB p → ∀ b, loAt g lo p = some b → HReach g p b
  decr : ∀ p, g.inB p → ∀ b0, loAt g s0.lowest_cost p = some b0 →
    ∃ b, b ≤ b0 ∧ loAt g lo p = some b
  stable : ∀ p, g.inB p → (visAt g s0.visitedH p = true ∨ p = p0) →
    loAt g lo p = loAt g s0.lowest_cost p
  entry : ∀ e ∈ fr, ∃ c b, e.1 = some c ∧ g.inB e.2 ∧ HReach g e.2 c ∧
    loAt g lo e.2 = some b ∧ b ≤ c
  cover : ∀ p, g.inB p → p ≠ p0 → visAt g s0.visitedH p = false →
    ∀ b, loAt g lo p = some b → (some b, p) ∈ fr

end ProofApparatus

section AStarApparatus

/-- The start node of the search: the policy's initial node at the
top-left corner, facing South. -/
def startNode (α : Type) [DecidableEq α] [SearchNode α] : α :=
  SearchNode.new (0, 0) Direction.South

/-- Number of universe nodes not yet recorded in a `best_cost` table;
together with the frontier length this bounds the remaining loop work. -/
def remUniv {α : Type} [DecidableEq α] [SearchNode α] (m : Map)
    (bc : List (α × Nat)) : Nat :=
  ((SearchNode.univAll (α := α) m).filter
    (fun n => (alookup bc n).isNone)).length

/-- Termination measure of the A* loop: every iteration strictly
decreases it. -/
def aPhi {α : Type} [DecidableEq α] [SearchNode α] (m : Map)
    (s : SState α) : Nat :=
  s.frontier.length + 5 * remUniv m s.best_cost

/-- The facts about a movement policy and a map on which the correctness
of the A* engine rests: the start node sits on the in-bounds top-left
cell; the heuristic reads the precomputed table at the node's cell, is
defined on every in-bounds cell, is consistent along every legal step,
and vanishes at the target; stepped-to cells are in bounds; all parents
of a node share one cell; no step reproduces the start node; and the
policy's node universe contains the start node and is closed under
stepping. -/
structure PolicyFacts (α : Type) [DecidableEq α] [SearchNode α]
    (m : Map) : Prop where
  hpos_new : SearchNode.pos (startNode α) = ((0, 0) : Pos)
  hstart_inB : m.grid.inB (0, 0)
  hH_eq : ∀ n : α, SearchNode.heuristic n m = m.heurAt (SearchNode.pos n)
  hH_total : ∀ p : Pos, m.grid.inB p → ∃ h, m.heurAt p = some h
  hH_cons : ∀ (n : α) (d : Direction) (n' : α),
    SearchNode.make_step n m d = some n' → m.grid.inB (SearchNode.pos n) →
    ∀ h h', m.heurAt (SearchNode.pos n) = some h →
      m.heurAt (SearchNode.pos n') = some h' →
      h ≤ m.grid.get (SearchNode.pos n') + h'
  hH_goal : m.heurAt m.target = some 0
  hstep_inB : ∀ (n : α) (d : Direction) (n' : α),
    SearchNode.make_step n m d = some n' → m.grid.inB (SearchNode.pos n')
  hsame : ∀ (a b : α) (d1 d2 : Direction) (n' : α),
    SearchNode.make_step a m d1 = some n' →
    SearchNode.make_step b m d2 = some n' →
    SearchNode.pos a = SearchNode.pos b
  hne_start : ∀ (n : α) (d : Direction) (n' : α),
    SearchNode.make_step n m d = some n' → n' ≠ startNode α
  hstart_univ : startNode α ∈ SearchNode.univAll (α := α) m
  hclosure : ∀ (n : α) (d : Direction) (n' : α),
    n ∈ SearchNode.univAll (α := α) m →
    SearchNode.make_step n m d = some n' →
    n' ∈ SearchNode.univAll (α := α) m

/-- Loop invariant of the A* search `Map::cheapest_path_cost`: visited
nodes hold their exact least path cost and have all their out-edges
relaxed and are never acceptable terminals; frontier entries carry the
current `best_cost` value of their node, with priority equal to cost plus
heuristic; frontier nodes are unvisited and appear in exactly one entry;
every discovered unvisited node has a frontier entry; recorded costs are
realizable, their nodes belong to the policy universe and sit in bounds,
and each non-start one was set while expanding a visited parent; and the
priority of every visited node is at most that of every frontier entry. -/
structure AInv {α : Type} [DecidableEq α] [SearchNode α] (m : Map)
    (s : SState α) : Prop where
  vis_dist : ∀ n ∈ s.visited, ∃ d, alookup s.best_cost n = some d ∧
    IsLeast {c | ReachCost m n c} d
  vis_relax : ∀ n ∈ s.visited, ∀ (d : Direction) (n' : α),
    SearchNode.make_step n m d = some n' →
    n' ∈ s.visited ∨ ∃ dn b, alookup s.best_cost n = some dn ∧
      alookup s.best_cost n' = some b ∧
      b ≤ dn + m.grid.get (SearchNode.pos n')
  vis_unacc : ∀ n ∈ s.visited, ¬(SearchNode.pos n = m.target ∧
    SearchNode.can_stop n = true)
  fr_entry : ∀ e ∈ s.frontier, ∃ h,
    m.heurAt (SearchNode.pos e.2.2) = some h ∧
    e.1 = some (e.2.1 + h) ∧ alookup s.best_cost e.2.2 = some e.2.1
  fr_unvis : ∀ e ∈ s.frontier, e.2.2 ∉ s.visited
  fr_nodup : s.frontier.Nodup
  fr_inj : ∀ e1 ∈ s.frontier, ∀ e2 ∈ s.frontier, e1.2.2 = e2.2.2 → e1 = e2
  fr_cover : ∀ n : α, n ∉ s.visited → ∀ b, alookup s.best_cost n = some b →
    ∃ f, (f, b, n) ∈ s.frontier
  bc_sound : ∀ (n : α) (b : Nat), alookup s.best_cost n = some b →
    ReachCost m n b ∧ n ∈ SearchNode.univAll (α := α) m ∧
      m.grid.inB (SearchNode.pos n)
  bc_parent : ∀ (n : α) (b : Nat), alookup s.best_cost n = some b →
    n = startNode α ∨ ∃ (n1 : α) (d1 : Direction) (c1 : Nat),
      n1 ∈ s.visited ∧ SearchNode.make_step n1 m d1 = some n ∧
      alookup s.best_cost n1 = some c1 ∧
      b = c1 + m.grid.get (SearchNode.pos n)
  bc_start : alookup s.best_cost (startNode α) = some 0
  fmono : ∀ n ∈ s.visited, ∀ e ∈ s.frontier, ∀ dn hn,
    alookup s.best_cost n = some dn →
    m.heurAt (SearchNode.pos n) = some hn →
    oLE (some (dn + hn)) e.1

/-- Intermediate invariant of the neighbour-relaxation fold inside one
expansion of the A* loop, relative to the pre-expansion state `s0`, the
popped node `n0` with cost `c0`, and the remaining frontier `rest`:
recorded costs are only ever added for fresh nodes (never changed), each
addition stepping from `n0` at cost `c0` plus the entry cost; the frontier
grows by entries for exactly those fresh nodes; and the bookkeeping fields
of `AInv` are kept in their mid-fold form. -/
structure AMid {α : Type} [DecidableEq α] [SearchNode α] (m : Map)
    (s0 : SState α) (n0 : α) (c0 : Nat) (rest : List (Entry α))
    (fr : List (Entry α)) (bc : List (α × Nat)) : Prop where
  look_mono : ∀ (n : α) (b0 : Nat), alookup s0.best_cost n = some b0 →
    alookup bc n = some b0
  look_new : ∀ (n : α) (b : Nat), alookup bc n = some b →
    alookup s0.best_cost n = some b ∨
    (alookup s0.best_cost n = none ∧ n ∉ s0.visited ∧
      (∃ d, SearchNode.make_step n0 m d = some n) ∧
      b = c0 + m.grid.get (SearchNode.pos n))
  fr_shape : ∃ new, fr = new ++ rest ∧ ∀ e ∈ new,
    alookup s0.best_cost e.2.2 = none
  fr_entry2 : ∀ e ∈ fr, ∃ h, m.heurAt (SearchNode.pos e.2.2) = some h ∧
    e.1 = some (e.2.1 + h) ∧ alookup bc e.2.2 = some e.2.1
  fr_unvis2 : ∀ e ∈ fr, e.2.2 ∉ s0.visited ∧ e.2.2 ≠ n0
  fr_inj2 : ∀ e1 ∈ fr, ∀ e2 ∈ fr, e1.2.2 = e2.2.2 → e1 = e2
  fr_nodup2 : fr.Nodup
  cover2 : ∀ n : α, n ∉ s0.visited → n ≠ n0 → ∀ b,
    alookup bc n = some b → ∃ f, (f, b, n) ∈ fr

end AStarApparatus

section DemoInputs

/-- A 1-by-1 demonstration grid. -/
def grid1x1 : GridA := ⟨1, 1, [3]⟩

/-- A 2-by-2 demonstration grid. -/
def grid2x2 : GridA := ⟨2, 2, [1, 2, 3, 4]⟩

/-- The 1-by-1 demonstration map. -/
def map1x1 : Map := Map.ofGrid grid1x1

/-- The 2-by-2 demonstration map. -/
def map2x2 : Map := Map.ofGrid grid2x2

/-- The 2-by-2 demonstration grid with the bottom-right cost raised. -/
def grid2x2b : GridA := ⟨2, 2, [1, 2, 3, 5]⟩

end DemoInputs

section BasicLemmas

/-- `opposite` is an involution. -/
theorem Direction.opposite_opposite (d : Direction) : d.opposite.opposite = d := by
  cases d <;> rfl

/-- Characterization of `get_neighbour_pos`: it returns a position iff the
stepped-to cell is inside the grid, and the result is that cell. -/
theorem Map.get_neighbour_pos_eq_some {m : Map} {p q : Pos} {d : Direction} :
    m.get_neighbour_pos p d = some q ↔
      ((p.1 : Int) + d.dy, (p.2 : Int) + d.dx) = ((q.1 : Int), (q.2 : Int)) ∧
        q.1 < m.grid.height ∧ q.2 < m.grid.width := by
  obtain ⟨q1, q2⟩ := q
  unfold Map.get_neighbour_pos
  simp only [Option.ite_none_left_eq_some, Option.some.injEq, Prod.mk.injEq, not_or]
  constructor
  · rintro ⟨⟨h1, h2, h3, h4⟩, hq1, hq2⟩
    push_neg at h1 h2 h3 h4
    refine ⟨⟨?_, ?_⟩, ?_, ?_⟩ <;> omega
  · rintro ⟨⟨hq1, hq2⟩, hh, hw⟩
    refine ⟨⟨?_, ?_, ?_, ?_⟩, ?_, ?_⟩ <;> omega

/-- Any position returned by `get_neighbour_pos` is strictly inside the grid. -/
theorem Map.get_neighbour_pos_in_bounds {m : Map} {p q : Pos} {d : Direction}
    (h : m.get_neighbour_pos p d = some q) :
    q.1 < m.grid.height ∧ q.2 < m.grid.width :=
  (Map.get_neighbour_pos_eq_some.mp h).2

end BasicLemmas

section PolicyClaims

/-- Writing the reversal test the way the source does (`self.direction ==
direction.opposite()`) is the same as testing whether the step direction is
the opposite of the node's direction. -/
theorem Direction.eq_opposite_comm (a b : Direction) :
    a = b.opposite ↔ b = a.opposite := by
  cases a <;> cases b <;> simp [Direction.opposite]

theorem crucible_make_step_char (m : Map) (c : Crucible) (d : Direction) :
    ((c.make_step m d).isSome ↔
      ((m.get_neighbour_pos c.pos d).isSome ∧ d ≠ c.direction.opposite ∧
        (d = c.direction → 0 < c.remaining_steps))) ∧
    ∀ c', c.make_step m d = some c' →
      m.get_neighbour_pos c.pos d = some c'.pos ∧ c'.direction = d ∧
        c'.remaining_steps =
          if d = c.direction then c.remaining_steps - 1 else 2 := by
  obtain ⟨cpos, cdir, crem⟩ := c
  constructor
  · unfold Crucible.make_step
    cases h : m.get_neighbour_pos cpos d with
    | none => simp
    | some q =>
      cases cdir <;> cases d <;>
        simp [Direction.opposite] <;> omega
  · intro c' hc'
    unfold Crucible.make_step at hc'
    cases h : m.get_neighbour_pos cpos d with
    | none => rw [h] at hc'; simp at hc'
    | some q =>
      rw [h] at hc'
      cases cdir <;> cases d <;>
        simp [Direction.opposite] at hc' <;>
        first
          | (obtain ⟨-, hc'⟩ := hc'; subst hc'; simp)
          | (subst hc'; simp)

/-- C4: a bounded-run node expands in a direction exactly when the stepped-to
cell is in bounds, the direction is not the 180-degree opposite of the node's
direction, and continuing straight requires a positive `remaining_steps`;
the successor's counter is the parent's minus one when continuing straight
and 2 on any turn (and it sits on the stepped-to cell, facing the step
direction). -/
theorem crucible_make_step_spec (m : Map) (c : Crucible) (d : Direction) :
    ((c.make_step m d).isSome ↔
      ((m.get_neighbour_pos c.pos d).isSome ∧ d ≠ c.direction.opposite ∧
        (d = c.direction → 0 < c.remaining_steps))) ∧
    ∀ c', c.make_step m d = some c' →
      m.get_neighbour_pos c.pos d = some c'.pos ∧ c'.direction = d ∧
        c'.remaining_steps =
          if d = c.direction then c.remaining_steps - 1 else 2 :=
  crucible_make_step_char m c d

/-- Witness for C4 on a concrete node of the 2-by-2 map: stepping East from
the start node succeeds, lands on cell (0, 1), and resets the counter to 2
because it is a turn. -/
theorem crucible_make_step_spec_witness :
    Crucible.make_step ⟨(0, 0), Direction.South, 3⟩ map2x2 Direction.East =
        some ⟨(0, 1), Direction.East, 2⟩ ∧
      Map.get_neighbour_pos map2x2 (0, 0) Direction.East = some (0, 1) := by
  have h := (crucible_make_step_spec map2x2 ⟨(0, 0), Direction.South, 3⟩
    Direction.East).2 ⟨(0, 1), Direction.East, 2⟩ (by rfl)
  exact ⟨by rfl, h.1⟩

theorem ultra_make_step_char (m : Map) (u : UltraCrucible) (d : Direction) :
    ((u.make_step m d).isSome ↔
      ((m.get_neighbour_pos u.pos d).isSome ∧ d ≠ u.direction.opposite ∧
        (d = u.direction → (u.consecutive_steps < 10 ∨ u.consecutive_steps = 0)) ∧
        (d ≠ u.direction → (4 ≤ u.consecutive_steps ∨ u.consecutive_steps = 0)))) ∧
    (∀ u', u.make_step m d = some u' →
      m.get_neighbour_pos u.pos d = some u'.pos ∧ u'.direction = d ∧
        u'.consecutive_steps =
          if d = u.direction then u.consecutive_steps + 1 else 1) ∧
    (u.can_stop = true ↔ 4 ≤ u.consecutive_steps) := by
  obtain ⟨upos, udir, ucnt⟩ := u
  refine ⟨?_, ?_, by simp [UltraCrucible.can_stop]⟩
  · unfold UltraCrucible.make_step
    cases h : m.get_neighbour_pos upos d with
    | none => simp
    | some q =>
      cases udir <;> cases d <;>
        simp [Direction.opposite] <;> omega
  · intro u' hu'
    unfold UltraCrucible.make_step at hu'
    cases h : m.get_neighbour_pos upos d with
    | none => rw [h] at hu'; simp at hu'
    | some q =>
      rw [h] at hu'
      cases udir <;> cases d <;>
        simp [Direction.opposite] at hu' <;>
        (obtain ⟨-, hu'⟩ := hu'; subst hu'; simp)

/-- C5: a minimum-run node expands in a direction exactly when the stepped-to
cell is in bounds, the direction is not the 180-degree opposite, continuing
straight requires a counter below 10 (the fresh initial counter 0 being
exempt), and turning requires a counter of at least 4 or the initial
counter 0; the successor's counter is the parent's plus one when continuing
straight and 1 on a turn; and the node may stop exactly when its counter
is at least 4. -/
theorem ultra_make_step_spec (m : Map) (u : UltraCrucible) (d : Direction) :
    ((u.make_step m d).isSome ↔
      ((m.get_neighbour_pos u.pos d).isSome ∧ d ≠ u.direction.opposite ∧
        (d = u.direction → (u.consecutive_steps < 10 ∨ u.consecutive_steps = 0)) ∧
        (d ≠ u.direction → (4 ≤ u.consecutive_steps ∨ u.consecutive_steps = 0)))) ∧
    (∀ u', u.make_step m d = some u' →
      m.get_neighbour_pos u.pos d = some u'.pos ∧ u'.direction = d ∧
        u'.consecutive_steps =
          if d = u.direction then u.consecutive_steps + 1 else 1) ∧
    (u.can_stop = true ↔ 4 ≤ u.consecutive_steps) :=
  ultra_make_step_char m u d

/-- Witness for C5 on a concrete node of the 2-by-2 map: continuing South
from the initial node succeeds (counter 0 is exempt from every run check)
and the successor's counter is 1. -/
theorem ultra_make_step_spec_witness :
    UltraCrucible.make_step ⟨(0, 0), Direction.South, 0⟩ map2x2
        Direction.South = some ⟨(1, 0), Direction.South, 1⟩ ∧
      (UltraCrucible.can_stop ⟨(0, 0), Direction.South, 0⟩ = true ↔
        4 ≤ (0 : Nat)) := by
  have h := (ultra_make_step_spec map2x2 ⟨(0, 0), Direction.South, 0⟩
    Direction.South).2
  exact ⟨by rfl, h.2⟩

/-- C9: the initial minimum-run node has counter 0, and every successor
produced by `make_step` has a counter between 1 and 10, so a counter of 0
identifies the initial node among all reachable nodes. -/
theorem ultra_consecutive_invariant :
    (∀ p d, (UltraCrucible.new p d).consecutive_steps = 0) ∧
    (∀ (m : Map) (u : UltraCrucible) d u', u.make_step m d = some u' →
      1 ≤ u'.consecutive_steps ∧ u'.consecutive_steps ≤ 10) := by
  refine ⟨fun p d => rfl, fun m u d u' hu' => ?_⟩
  obtain ⟨hiff, hval, _⟩ := ultra_make_step_char m u d
  obtain ⟨-, -, hcount⟩ := hval u' hu'
  by_cases h4 : d = u.direction
  · have hguard := (hiff.mp (by rw [hu']; rfl)).2.2.1 h4
    rw [hcount, if_pos h4]
    omega
  · rw [hcount, if_neg h4]
    omega

/-- Witness for C9 at a concrete step on the 2-by-2 map. -/
theorem ultra_consecutive_invariant_witness :
    1 ≤ (⟨(1, 0), Direction.South, 1⟩ : UltraCrucible).consecutive_steps ∧
      (⟨(1, 0), Direction.South, 1⟩ : UltraCrucible).consecutive_steps ≤ 10 :=
  ultra_consecutive_invariant.2 map2x2 ⟨(0, 0), Direction.South, 0⟩
    Direction.South ⟨(1, 0), Direction.South, 1⟩ (by rfl)

theorem make_step_bounds_char (m : Map) :
    (∀ (c : Crucible) d c', c.make_step m d = some c' →
      c'.pos.1 < m.grid.height ∧ c'.pos.2 < m.grid.width ∧
        c'.pos.1 * m.grid.width + c'.pos.2 < m.grid.height * m.grid.width) ∧
    (∀ (u : UltraCrucible) d u', u.make_step m d = some u' →
      u'.pos.1 < m.grid.height ∧ u'.pos.2 < m.grid.width ∧
        u'.pos.1 * m.grid.width + u'.pos.2 < m.grid.height * m.grid.width) := by
  have idx : ∀ r c, r < m.grid.height → c < m.grid.width →
      r * m.grid.width + c < m.grid.height * m.grid.width := by
    intro r c hr hc
    calc r * m.grid.width + c < r * m.grid.width + m.grid.width := by omega
      _ = (r + 1) * m.grid.width := by ring
      _ ≤ m.grid.height * m.grid.width :=
        Nat.mul_le_mul_right m.grid.width (by omega)
  constructor
  · intro c d c' hc'
    obtain ⟨hn, -, -⟩ := (crucible_make_step_char m c d).2 c' hc'
    obtain ⟨h1, h2⟩ := Map.get_neighbour_pos_in_bounds hn
    exact ⟨h1, h2, idx _ _ h1 h2⟩
  · intro u d u' hu'
    obtain ⟨hn, -, -⟩ := (ultra_make_step_char m u d).2.1 u' hu'
    obtain ⟨h1, h2⟩ := Map.get_neighbour_pos_in_bounds hn
    exact ⟨h1, h2, idx _ _ h1 h2⟩

/-- C10: every node produced by `make_step` (for either policy) sits
strictly inside the grid, and its flat row-major index is within the grid
and heuristic arrays, so every grid and heuristic lookup the engine
performs on an expanded node is in bounds. -/
theorem make_step_positions_in_bounds (m : Map) :
    (∀ (c : Crucible) d c', c.make_step m d = some c' →
      c'.pos.1 < m.grid.height ∧ c'.pos.2 < m.grid.width ∧
        c'.pos.1 * m.grid.width + c'.pos.2 < m.grid.height * m.grid.width) ∧
    (∀ (u : UltraCrucible) d u', u.make_step m d = some u' →
      u'.pos.1 < m.grid.height ∧ u'.pos.2 < m.grid.width ∧
        u'.pos.1 * m.grid.width + u'.pos.2 < m.grid.height * m.grid.width) :=
  make_step_bounds_char m

/-- Witness for C10 at a concrete step on the 2-by-2 map. -/
theorem make_step_positions_in_bounds_witness :
    (⟨(0, 1), Direction.East, 2⟩ : Crucible).pos.1 < map2x2.grid.height ∧
      (⟨(0, 1), Direction.East, 2⟩ : Crucible).pos.2 < map2x2.grid.width ∧
      (⟨(0, 1), Direction.East, 2⟩ : Crucible).pos.1 * map2x2.grid.width +
          (⟨(0, 1), Direction.East, 2⟩ : Crucible).pos.2 <
        map2x2.grid.height * map2x2.grid.width :=
  (make_step_positions_in_bounds map2x2).1 ⟨(0, 0), Direction.South, 3⟩
    Direction.East ⟨(0, 1), Direction.East, 2⟩ (by rfl)

/-- C8: on a 1-by-1 grid the bounded-run search returns cost 0 (the start
node is immediately an acceptable terminal), while the minimum-run-with-cap
search reports unreachability, because its start node cannot stop before a
run of 4 and no move stays on the grid. -/
theorem one_by_one_grid_results :
    map1x1.cheapest_path_cost_normal = some 0 ∧
      map1x1.cheapest_path_cost_ultra = none := by
  constructor <;> rfl

end PolicyClaims

section ParsingClaims

/-- Index of the first newline in a byte list that starts with a
newline-free block. -/
theorem findIdx_no_nl (l0 : List Nat) (h : ∀ b ∈ l0, b ≠ 10)
    (rest : List Nat) (i : Nat) :
    List.findIdx? (fun b => b = 10) (l0 ++ 10 :: rest) i =
      some (i + l0.length) := by
  induction l0 generalizing i with
  | nil => simp [List.findIdx?_cons]
  | cons a l ih =>
    have ha : a ≠ 10 := h a (by simp)
    rw [List.cons_append, List.findIdx?_cons]
    simp only [decide_eq_true_eq]
    rw [if_neg ha, ih (fun b hb => h b (by simp [hb])) (i + 1)]
    congr 1
    simp
    omega

/-- The length test performed after the truncating division `len / width`
succeeds exactly when `width` divides `len`. -/
theorem div_exact_iff (L w : Nat) (h : w ≠ 0) : L = L / w * w ↔ w ∣ L := by
  constructor
  · intro hL
    exact ⟨L / w, by rw [Nat.mul_comm]; exact hL⟩
  · intro hd
    exact (Nat.div_mul_cancel hd).symm

/-- Closed form of `Map.from_str` (pure unfolding of its let-bindings). -/
theorem from_str_eq (s : List Nat) :
    Map.from_str s =
      (if (s.findIdx? (fun b => b = 10)).getD s.length = 0 then
        ParseOutcome.crashed
      else if ((s.filter (fun b => b ≠ 10)).map
            (fun b => (b + 208) % 256)).length =
          ((s.filter (fun b => b ≠ 10)).map
            (fun b => (b + 208) % 256)).length /
              ((s.findIdx? (fun b => b = 10)).getD s.length) *
            ((s.findIdx? (fun b => b = 10)).getD s.length) then
        ParseOutcome.ok (Map.ofGrid
          ⟨((s.filter (fun b => b ≠ 10)).map
              (fun b => (b + 208) % 256)).length /
              ((s.findIdx? (fun b => b = 10)).getD s.length),
            (s.findIdx? (fun b => b = 10)).getD s.length,
            (s.filter (fun b => b ≠ 10)).map (fun b => (b + 208) % 256)⟩)
      else ParseOutcome.reshapeErr) := rfl

/-- C3 counterexample: the byte 97 (letter 'a') is not an ASCII digit, yet
parsing "a" succeeds; the ragged digit input "12\n345\n6" (line lengths 2,
3, 1) also parses successfully because its six digits happen to fill a 3-by-2
array; and the empty input causes a division-by-zero panic instead of
returning a format error. -/
theorem from_str_claim_counterexample :
    Map.from_str [97] = ParseOutcome.ok (Map.ofGrid ⟨1, 1, [49]⟩) ∧
      Map.from_str [49, 50, 10, 51, 52, 53, 10, 54] =
        ParseOutcome.ok (Map.ofGrid ⟨3, 2, [1, 2, 3, 4, 5, 6]⟩) ∧
      Map.from_str [] = ParseOutcome.crashed :=
  ⟨rfl, rfl, rfl⟩

/-- Exact outcome of `Map::from_str` on an arbitrary byte string: it panics
iff the first line is empty, and otherwise fails iff the first-line length
does not divide the number of non-newline bytes; no digit validation takes
place. -/
theorem from_str_outcome_spec (s : List Nat) :
    (Map.from_str s = ParseOutcome.crashed ↔
      (s.findIdx? (fun b => b = 10)).getD s.length = 0) ∧
    (Map.from_str s = ParseOutcome.reshapeErr ↔
      ((s.findIdx? (fun b => b = 10)).getD s.length ≠ 0 ∧
        ¬ (s.findIdx? (fun b => b = 10)).getD s.length ∣
          (s.filter (fun b => b ≠ 10)).length)) ∧
    ((∃ m, Map.from_str s = ParseOutcome.ok m) ↔
      ((s.findIdx? (fun b => b = 10)).getD s.length ≠ 0 ∧
        (s.findIdx? (fun b => b = 10)).getD s.length ∣
          (s.filter (fun b => b ≠ 10)).length)) := by
  have hlen : ((s.filter (fun b => b ≠ 10)).map
      (fun b => (b + 208) % 256)).length =
      (s.filter (fun b => b ≠ 10)).length := List.length_map _ _
  rw [from_str_eq s]
  simp only [hlen]
  by_cases h0 : (s.findIdx? (fun b => b = 10)).getD s.length = 0
  · simp [h0]
  · rw [if_neg h0]
    by_cases hd : (s.findIdx? (fun b => b = 10)).getD s.length ∣
        (s.filter (fun b => b ≠ 10)).length
    · have hd2 : (s.findIdx? (fun b => b = 10)).getD s.length ∣
          (List.filter (fun b => !decide (b = 10)) s).length := by
        simpa using hd
      rw [if_pos ((div_exact_iff _ _ h0).mpr hd)]
      simp [h0, hd2]
    · have hd2 : ¬ (s.findIdx? (fun b => b = 10)).getD s.length ∣
          (List.filter (fun b => !decide (b = 10)) s).length := by
        simpa using hd
      rw [if_neg (fun hcon => hd ((div_exact_iff _ _ h0).mp hcon))]
      simp [h0, hd2]

/-- Unfolding of `joinLines` on a leading line. -/
theorem joinLines_cons (l0 : List Nat) (rest : List (List Nat)) :
    joinLines (l0 :: rest) = l0 ++ 10 :: joinLines rest := by
  simp [joinLines]

/-- Dropping the newlines of a joined input recovers the concatenated
lines, provided no line contains a newline byte. -/
theorem filter_joinLines (lines : List (List Nat))
    (h : ∀ l ∈ lines, ∀ b ∈ l, b ≠ 10) :
    (joinLines lines).filter (fun b => b ≠ 10) = lines.flatten := by
  induction lines with
  | nil => rfl
  | cons l0 rest ih =>
    rw [joinLines_cons, List.filter_append, List.filter_cons]
    rw [if_neg (by decide : ¬ (decide ((10 : Nat) ≠ 10) = true))]
    rw [List.filter_eq_self.mpr (fun b hb => by
      simpa using h l0 (by simp) b hb)]
    rw [ih (fun l hl b hb => h l (by simp [hl]) b hb)]
    simp

/-- Length of the concatenation of equally long lines. -/
theorem flatten_len (lines : List (List Nat)) (w : Nat)
    (h : ∀ l ∈ lines, l.length = w) :
    lines.flatten.length = lines.length * w := by
  induction lines with
  | nil => simp
  | cons l0 rest ih =>
    simp only [List.flatten_cons, List.length_append, List.length_cons]
    rw [h l0 (by simp), ih (fun l hl => h l (by simp [hl]))]
    ring

/-- Every well-formed textual grid (equal-length nonempty digit lines)
parses successfully into the grid of its digit values. -/
theorem from_str_wf_input (lines : List (List Nat)) (h : WFInput lines) :
    Map.from_str (joinLines lines) = ParseOutcome.ok (Map.ofGrid
      ⟨lines.length, lines.headI.length,
        lines.flatten.map (fun b => b - 48)⟩) := by
  obtain ⟨hne, hlen, hw0, hdig⟩ := h
  obtain ⟨l0, rest, rfl⟩ := List.exists_cons_of_ne_nil hne
  simp only [List.headI] at hw0 ⊢
  have hd : ∀ l ∈ l0 :: rest, ∀ b ∈ l, b ≠ 10 := by
    intro l hl b hb
    have := hdig l hl b hb
    omega
  have hwidth : ((joinLines (l0 :: rest)).findIdx? (fun b => b = 10)).getD
      (joinLines (l0 :: rest)).length = l0.length := by
    rw [joinLines_cons, findIdx_no_nl l0 (hd l0 (by simp)) _ 0]
    simp
  have hfl : (joinLines (l0 :: rest)).filter (fun b => b ≠ 10) =
      (l0 :: rest).flatten := filter_joinLines _ hd
  have hfll : (l0 :: rest).flatten.length = (l0 :: rest).length * l0.length :=
    flatten_len _ _ (fun l hl => hlen l hl)
  have hmap : (l0 :: rest).flatten.map (fun b => (b + 208) % 256) =
      (l0 :: rest).flatten.map (fun b => b - 48) := by
    apply List.map_congr_left
    intro b hb
    obtain ⟨l, hl, hbl⟩ := List.mem_flatten.mp hb
    have := hdig l hl b hbl
    omega
  rw [from_str_eq]
  simp only [hwidth, hfl, hmap, List.length_map, hfll]
  rw [if_neg hw0]
  have hpos : 0 < l0.length := Nat.pos_of_ne_zero hw0
  have hdivc : (l0 :: rest).length * l0.length / l0.length = (l0 :: rest).length :=
    Nat.mul_div_left _ hpos
  rw [if_pos (by rw [hdivc])]
  rw [hdivc]

/-- C3 (amended): parsing succeeds on every input made of one or more
equal-length nonempty lines of digits, yielding the grid of digit values;
but the parser validates neither characters nor line lengths: on an
arbitrary input it returns an error exactly when the number of non-newline
bytes is not a multiple of the first-line length (thereby accepting some
ragged and non-digit inputs), and it panics with a division by zero, rather
than returning a format error, when the first line is empty (in particular
on the empty input). -/
theorem from_str_spec :
    (∀ s : List Nat,
      (Map.from_str s = ParseOutcome.crashed ↔
        (s.findIdx? (fun b => b = 10)).getD s.length = 0) ∧
      (Map.from_str s = ParseOutcome.reshapeErr ↔
        ((s.findIdx? (fun b => b = 10)).getD s.length ≠ 0 ∧
          ¬ (s.findIdx? (fun b => b = 10)).getD s.length ∣
            (s.filter (fun b => b ≠ 10)).length)) ∧
      ((∃ m, Map.from_str s = ParseOutcome.ok m) ↔
        ((s.findIdx? (fun b => b = 10)).getD s.length ≠ 0 ∧
          (s.findIdx? (fun b => b = 10)).getD s.length ∣
            (s.filter (fun b => b ≠ 10)).length))) ∧
    (∀ lines : List (List Nat), WFInput lines →
      Map.from_str (joinLines lines) = ParseOutcome.ok (Map.ofGrid
        ⟨lines.length, lines.headI.length,
          lines.flatten.map (fun b => b - 48)⟩)) :=
  ⟨from_str_outcome_spec, from_str_wf_input⟩

/-- Witness for C3 (amended) on the concrete well-formed input
"12\n34\n". -/
theorem from_str_spec_witness :
    Map.from_str (joinLines [[49, 50], [51, 52]]) =
      ParseOutcome.ok (Map.ofGrid ⟨2, 2, [1, 2, 3, 4]⟩) := by
  have h := from_str_spec.2 [[49, 50], [51, 52]]
    (by refine ⟨by simp, ?_, by simp, ?_⟩ <;> decide)
  exact h

end ParsingClaims

section Utilities

theorem cmpONat_ngt_iff (x y : Option Nat) : cmpONat x y ≠ .gt ↔ oLE x y := by
  cases x <;> cases y <;> simp [cmpONat, oLE, Nat.compare_eq_gt]

theorem oLE_some_some {a b : Nat} : oLE (some a) (some b) ↔ a ≤ b :=
  Iff.rfl

theorem oLE_refl (x : Option Nat) : oLE x x := by
  cases x <;> simp [oLE]

theorem oLE_trans {x y z : Option Nat} (h1 : oLE x y) (h2 : oLE y z) :
    oLE x z := by
  cases x <;> cases y <;> cases z <;> simp_all [oLE]
  omega

theorem listMinBy_mem (c : β → β → Ordering) (b : β) (l : List β) :
    listMinBy c b l ∈ b :: l := by
  induction l generalizing b with
  | nil => simp [listMinBy]
  | cons x xs ih =>
    rw [listMinBy]
    by_cases hc : c x b = .lt
    · rw [if_pos hc]
      rcases List.mem_cons.mp (ih x) with h | h
      · simp [h]
      · simp [h]
    · rw [if_neg hc]
      rcases List.mem_cons.mp (ih b) with h | h
      · simp [h]
      · simp [h]

/-- If the comparator's first component orders consistently with `oLE`,
the list minimum has a minimal first component. -/
theorem listMinBy_fst_le (fv : β → Option Nat) (c : β → β → Ordering)
    (h1 : ∀ x y, c x y = .lt → oLE (fv x) (fv y))
    (h2 : ∀ x y, ¬ c x y = .lt → oLE (fv y) (fv x)) (l : List β) (b : β) :
    ∀ y ∈ b :: l, oLE (fv (listMinBy c b l)) (fv y) := by
  induction l generalizing b with
  | nil =>
    intro y hy
    rcases List.mem_cons.mp hy with rfl | h
    · exact oLE_refl _
    · cases h
  | cons x xs ih =>
    intro y hy
    rw [listMinBy]
    have hbase : oLE (fv (if c x b = .lt then x else b)) (fv b) ∧
        oLE (fv (if c x b = .lt then x else b)) (fv x) := by
      by_cases hc : c x b = .lt
      · rw [if_pos hc]
        exact ⟨h1 x b hc, oLE_refl _⟩
      · rw [if_neg hc]
        exact ⟨oLE_refl _, h2 x b hc⟩
    rcases List.mem_cons.mp hy with rfl | hm
    · exact oLE_trans (ih _ _ (by simp)) hbase.1
    · rcases List.mem_cons.mp hm with rfl | hm2
      · exact oLE_trans (ih _ _ (by simp)) hbase.2
      · exact ih _ _ (by simp [hm2])

theorem popMin_eq (c : β → β → Ordering) [DecidableEq β] {l : List β}
    {e : β} {rest : List β} (h : popMin c l = some (e, rest)) :
    e ∈ l ∧ rest = l.erase e := by
  cases l with
  | nil => cases h
  | cons x xs =>
    rw [popMin] at h
    simp only [Option.some.injEq, Prod.mk.injEq] at h
    obtain ⟨he, hr⟩ := h
    exact ⟨he ▸ listMinBy_mem c x xs, by rw [← hr, ← he]⟩

theorem popMin_fst_le (fv : β → Option Nat) (c : β → β → Ordering)
    [DecidableEq β]
    (h1 : ∀ x y, c x y = .lt → oLE (fv x) (fv y))
    (h2 : ∀ x y, ¬ c x y = .lt → oLE (fv y) (fv x)) {l : List β}
    {e : β} {rest : List β} (h : popMin c l = some (e, rest)) :
    ∀ y ∈ l, oLE (fv e) (fv y) := by
  cases l with
  | nil => cases h
  | cons x xs =>
    rw [popMin] at h
    simp only [Option.some.injEq, Prod.mk.injEq] at h
    exact h.1 ▸ listMinBy_fst_le fv c h1 h2 xs x

theorem mem_erase_iff_of_ne [DecidableEq β] {a b : β} {l : List β}
    (h : a ≠ b) : a ∈ l.erase b ↔ a ∈ l := by
  induction l with
  | nil => simp
  | cons x xs ih =>
    rw [List.erase_cons]
    by_cases hx : x = b
    · subst hx
      rw [if_pos (by simp)]
      constructor
      · exact fun hm => List.mem_cons_of_mem _ hm
      · intro hm
        rcases List.mem_cons.mp hm with rfl | hm
        · exact absurd rfl h
        · exact hm
    · rw [if_neg (by simp [hx])]
      simp [List.mem_cons, ih]

theorem mem_of_mem_erase2 [DecidableEq β] {a b : β} {l : List β}
    (hm : a ∈ l.erase b) : a ∈ l := by
  induction l with
  | nil => simpa using hm
  | cons x xs ih =>
    rw [List.erase_cons] at hm
    by_cases hx : x = b
    · rw [if_pos (by simp [hx])] at hm
      exact List.mem_cons_of_mem _ hm
    · rw [if_neg (by simp [hx])] at hm
      rcases List.mem_cons.mp hm with rfl | hm
      · exact List.mem_cons_self _ _
      · exact List.mem_cons_of_mem _ (ih hm)

theorem length_erase_of_mem2 [DecidableEq β] {a : β} {l : List β}
    (h : a ∈ l) : (l.erase a).length + 1 = l.length := by
  induction l with
  | nil => cases h
  | cons x xs ih =>
    rw [List.erase_cons]
    by_cases hx : x = a
    · rw [if_pos (by simp [hx])]
      simp
    · rw [if_neg (by simp [hx])]
      rcases List.mem_cons.mp h with rfl | hm
      · exact absurd rfl hx
      · simpa using ih hm

theorem popMin_none (c : β → β → Ordering) [DecidableEq β] {l : List β}
    (h : popMin c l = none) : l = [] := by
  cases l with
  | nil => rfl
  | cons x xs => rw [popMin] at h; cases h

theorem getD_set_self {α} (l : List α) (i : Nat) (x d : α)
    (h : i < l.length) : (l.set i x).getD i d = x := by
  induction l generalizing i with
  | nil => simp at h
  | cons a t ih =>
    cases i with
    | zero => rfl
    | succ k =>
      simp only [List.set_cons_succ, List.getD_cons_succ]
      exact ih k (by simpa using h)

theorem getD_set_ne {α} (l : List α) {i j : Nat} (x : α) (d : α)
    (h : i ≠ j) : (l.set i x).getD j d = l.getD j d := by
  induction l generalizing i j with
  | nil => simp
  | cons a t ih =>
    cases i with
    | zero =>
      cases j with
      | zero => exact absurd rfl h
      | succ k => rfl
    | succ k =>
      cases j with
      | zero => rfl
      | succ k2 =>
        simp only [List.set_cons_succ, List.getD_cons_succ]
        exact ih (fun hh => h (by omega))

theorem getD_replicate {α} (n i : Nat) (a d : α) :
    (List.replicate n a).getD i d = if i < n then a else d := by
  induction n generalizing i with
  | zero => simp
  | succ k ih =>
    cases i with
    | zero => simp [List.replicate]
    | succ j =>
      simp only [List.replicate, List.getD_cons_succ, ih]
      by_cases h : j < k
      · rw [if_pos h, if_pos (by omega)]
      · rw [if_neg h, if_neg (by omega)]

theorem count_false_set_true (l : List Bool) (i : Nat)
    (hf : l.getD i false = false) (hi : i < l.length) :
    (l.set i true).count false + 1 = l.count false := by
  induction l generalizing i with
  | nil => simp at hi
  | cons a t ih =>
    cases i with
    | zero =>
      simp only [List.getD_cons_zero] at hf
      subst hf
      simp [List.count_cons]
    | succ k =>
      simp only [List.set_cons_succ]
      have := ih k (by simpa using hf) (by simpa using hi)
      simp only [List.count_cons]
      split <;> omega

theorem idx_inj {h w : Nat} {p q : Pos} (hp1 : p.1 < h) (hp2 : p.2 < w)
    (hq1 : q.1 < h) (hq2 : q.2 < w)
    (heq : p.1 * w + p.2 = q.1 * w + q.2) : p = q := by
  rcases Nat.lt_trichotomy p.1 q.1 with hlt | heq1 | hgt
  · exfalso
    have : p.1 * w + p.2 < q.1 * w + q.2 := by
      calc p.1 * w + p.2 < p.1 * w + w := by omega
        _ = (p.1 + 1) * w := by ring
        _ ≤ q.1 * w := Nat.mul_le_mul_right w (by omega)
        _ ≤ q.1 * w + q.2 := by omega
    omega
  · have : p.2 = q.2 := by
      rw [heq1] at heq
      omega
    exact Prod.ext heq1 this
  · exfalso
    have : q.1 * w + q.2 < p.1 * w + p.2 := by
      calc q.1 * w + q.2 < q.1 * w + w := by omega
        _ = (q.1 + 1) * w := by ring
        _ ≤ p.1 * w := Nat.mul_le_mul_right w (by omega)
        _ ≤ p.1 * w + p.2 := by omega
    omega

theorem idx_lt {h w : Nat} {p : Pos} (hp1 : p.1 < h) (hp2 : p.2 < w) :
    p.1 * w + p.2 < h * w := by
  calc p.1 * w + p.2 < p.1 * w + w := by omega
    _ = (p.1 + 1) * w := by ring
    _ ≤ h * w := Nat.mul_le_mul_right w (by omega)

end Utilities

section HeurProof

theorem then_eq_lt {o1 o2 : Ordering} :
    (o1.then o2) = .lt ↔ o1 = .lt ∨ (o1 = .eq ∧ o2 = .lt) := by
  cases o1 <;> simp [Ordering.then]

theorem cmpONat_lt_oLE {x y : Option Nat} (h : cmpONat x y = .lt) :
    oLE x y := by
  cases x <;> cases y <;> simp_all [cmpONat, oLE, Nat.compare_eq_lt]
  all_goals omega

theorem cmpONat_nlt_oLE {x y : Option Nat} (h : ¬ cmpONat x y = .lt) :
    oLE y x := by
  cases x <;> cases y <;> simp_all [cmpONat, oLE, Nat.compare_eq_lt]
  all_goals omega

theorem cmpONat_some_some_lt {a b : Nat} :
    cmpONat (some a) (some b) = .lt ↔ a < b := by
  simp [cmpONat, Nat.compare_eq_lt]

theorem cmpONat_eq_oLE {x y : Option Nat} (h : cmpONat x y = .eq) :
    oLE x y := by
  cases x <;> cases y <;> simp_all [cmpONat, oLE, Nat.compare_eq_eq]

theorem cmpHEntry_fst_lt :
    ∀ x y : Option Nat × Pos, cmpHEntry x y = .lt → oLE x.1 y.1 := by
  intro x y h
  rw [cmpHEntry, then_eq_lt] at h
  rcases h with h | ⟨h, -⟩
  · exact cmpONat_lt_oLE h
  · exact cmpONat_eq_oLE h

theorem cmpHEntry_fst_nlt :
    ∀ x y : Option Nat × Pos, ¬ cmpHEntry x y = .lt → oLE y.1 x.1 := by
  intro x y h
  rw [cmpHEntry, then_eq_lt] at h
  push_neg at h
  by_cases h1 : cmpONat x.1 y.1 = .lt
  · exact absurd h1 (by simp [h])
  · exact cmpONat_nlt_oLE h1

theorem hreach_inB {g : GridA} (hg : g.WF) {p : Pos} {c : Nat}
    (h : HReach g p c) : g.inB p := by
  induction h with
  | init =>
    obtain ⟨h1, h2, -, -⟩ := hg
    exact ⟨by omega, by omega⟩
  | step hr hadj ih => exact hadj.1

theorem shiftPosIn_spec {g : GridA} {p q : Pos} {mv : Int × Int}
    (hmv : mv ∈ hMoves) (h : shiftPosIn g p mv = some q) :
    Adjacent g p q ∧ q ≠ p := by
  simp only [hMoves, List.mem_cons, List.not_mem_nil, or_false] at hmv
  rcases hmv with rfl | rfl | rfl | rfl <;>
  · rw [shiftPosIn] at h
    split at h
    · cases h
    · rename_i hneg
      push_neg at hneg
      dsimp only at h
      split at h
      · cases h
      · rename_i hub
        push_neg at hub
        injection h with h
        subst h
        refine ⟨⟨⟨by omega, by omega⟩, ?_⟩, ?_⟩
        · dsimp only
          omega
        · intro hq
          rw [Prod.ext_iff] at hq
          dsimp only at hq
          omega

theorem adjacent_to_move {g : GridA} {p q : Pos} (h : Adjacent g p q) :
    ∃ mv ∈ hMoves, shiftPosIn g p mv = some q := by
  obtain ⟨⟨hq1, hq2⟩, hrel⟩ := h
  rcases hrel with ⟨h1, h2⟩ | ⟨h1, h2⟩ | ⟨h1, h2⟩ | ⟨h1, h2⟩
  · exact ⟨(1, 0), by simp [hMoves], by
      rw [shiftPosIn]
      rw [if_neg (by omega), if_neg (by simp only []; omega)]
      simp only [Option.some.injEq]
      rw [Prod.ext_iff]
      constructor <;> simp only [] <;> omega⟩
  · exact ⟨(-1, 0), by simp [hMoves], by
      rw [shiftPosIn]
      rw [if_neg (by omega), if_neg (by simp only []; omega)]
      simp only [Option.some.injEq]
      rw [Prod.ext_iff]
      constructor <;> simp only [] <;> omega⟩
  · exact ⟨(0, 1), by simp [hMoves], by
      rw [shiftPosIn]
      rw [if_neg (by omega), if_neg (by simp only []; omega)]
      simp only [Option.some.injEq]
      rw [Prod.ext_iff]
      constructor <;> simp only [] <;> omega⟩
  · exact ⟨(0, -1), by simp [hMoves], by
      rw [shiftPosIn]
      rw [if_neg (by omega), if_neg (by simp only []; omega)]
      simp only [Option.some.injEq]
      rw [Prod.ext_iff]
      constructor <;> simp only [] <;> omega⟩

theorem idx_ne_of_ne {g : GridA} {p q : Pos} (hp : g.inB p) (hq : g.inB q)
    (h : p ≠ q) : g.idx p ≠ g.idx q :=
  fun hidx => h (idx_inj hp.1 hp.2 hq.1 hq.2 hidx)

theorem loAt_set_self {g : GridA} {lo : List (Option Nat)} {p : Pos}
    (hlen : lo.length = g.height * g.width) (hp : g.inB p) (x : Option Nat) :
    loAt g (lo.set (g.idx p) x) p = x :=
  getD_set_self lo (g.idx p) x none (by rw [hlen]; exact idx_lt hp.1 hp.2)

theorem loAt_set_ne {g : GridA} {lo : List (Option Nat)} {p q : Pos}
    (hp : g.inB p) (hq : g.inB q) (hne : q ≠ p) (x : Option Nat) :
    loAt g (lo.set (g.idx p) x) q = loAt g lo q :=
  getD_set_ne lo x none (idx_ne_of_ne hp hq (fun hh => hne hh.symm))

theorem hMid_step {g : GridA} {s0 : HState} (hinv : HInv g s0)
    {p0 : Pos} {c0 : Nat}
    (hr0 : HReach g p0 c0) (hl0 : IsLeast {c | HReach g p0 c} c0)
    {lo : List (Option Nat)} {fr : List (Option Nat × Pos)}
    (hm : HMid g s0 p0 c0 lo fr) {mv : Int × Int} (hmv : mv ∈ hMoves) :
    HMid g s0 p0 c0 (hRelax g p0 (some c0) (lo, fr) mv).1
        (hRelax g p0 (some c0) (lo, fr) mv).2 ∧
      (∀ p, g.inB p → ∀ b0, loAt g lo p = some b0 →
        ∃ b, b ≤ b0 ∧ loAt g (hRelax g p0 (some c0) (lo, fr) mv).1 p = some b) ∧
      (∀ q, shiftPosIn g p0 mv = some q →
        ∃ b', loAt g (hRelax g p0 (some c0) (lo, fr) mv).1 q = some b' ∧
          b' ≤ c0 + g.get p0) := by
  cases hsp : shiftPosIn g p0 mv with
  | none =>
    rw [hRelax, hsp]
    exact ⟨hm, fun p hp b0 hb0 => ⟨b0, le_refl _, hb0⟩,
      fun q hq => Option.noConfusion hq⟩
  | some nb =>
    obtain ⟨hadj, hne⟩ := shiftPosIn_spec hmv hsp
    have hnbin : g.inB nb := hadj.1
    rw [hRelax, hsp]
    dsimp only
    by_cases himp :
        cmpONat (Option.map (· + g.get p0) (some c0)) (lo.getD (g.idx nb) none)
          = .lt
    · -- improvement branch
      rw [if_pos himp]
      have hncost : Option.map (· + g.get p0) (some c0) =
          some (c0 + g.get p0) := rfl
      -- nb is not finalized
      have hnb_unvis : visAt g s0.visitedH nb = false := by
        by_contra hvis
        rw [Bool.not_eq_false] at hvis
        obtain ⟨bq, hbq, hlq⟩ := hinv.vis_dist nb hnbin hvis
        have hstab := hm.stable nb hnbin (Or.inl hvis)
        have hub : bq ≤ c0 + g.get p0 :=
          hlq.2 (HReach.step hl0.1 hadj)
        rw [hncost] at himp
        rw [show lo.getD (g.idx nb) none = loAt g lo nb from rfl, hstab,
          hbq] at himp
        rw [cmpONat_some_some_lt] at himp
        omega
      have hset : loAt g (lo.set (g.idx nb) (some (c0 + g.get p0))) nb =
          some (c0 + g.get p0) := loAt_set_self hm.len hnbin _
      have hreach_nb : HReach g nb (c0 + g.get p0) := HReach.step hr0 hadj
      rw [hncost]
      rw [show (lo.set (g.idx nb) (some (c0 + g.get p0))).getD (g.idx nb)
        none = loAt g (lo.set (g.idx nb) (some (c0 + g.get p0))) nb from rfl,
        hset]
      refine ⟨⟨?_, ?_, ?_, ?_, ?_, ?_⟩, ?_, ?_⟩
      · rw [List.length_set]
        exact hm.len
      · intro p hp b hb
        by_cases hpq : p = nb
        · subst hpq
          rw [hset] at hb
          injection hb with hb
          rw [← hb]
          exact hreach_nb
        · rw [loAt_set_ne hnbin hp hpq] at hb
          exact hm.sound p hp b hb
      · intro p hp b0 hb0
        by_cases hpq : p = nb
        · obtain ⟨b, hble, hbold⟩ := hm.decr _ hp b0 hb0
          rw [hpq] at hbold ⊢
          refine ⟨c0 + g.get p0, ?_, hset⟩
          rw [hncost] at himp
          rw [show lo.getD (g.idx nb) none = loAt g lo nb from rfl, hbold]
            at himp
          have hlt2 := cmpONat_lt_oLE himp
          rw [oLE_some_some] at hlt2
          omega
        · rw [loAt_set_ne hnbin hp hpq]
          exact hm.decr p hp b0 hb0
      · intro p hp hvp
        have hpq : p ≠ nb := by
          rintro rfl
          rcases hvp with hvp | hvp
          · rw [hvp] at hnb_unvis
            cases hnb_unvis
          · exact hne hvp
        rw [loAt_set_ne hnbin hp hpq]
        exact hm.stable p hp hvp
      · intro e he
        rcases List.mem_cons.mp he with rfl | he
        · exact ⟨c0 + g.get p0, c0 + g.get p0, rfl, hnbin, hreach_nb, hset,
            le_refl _⟩
        · obtain ⟨c, b, he1, he2, he3, he4, he5⟩ := hm.entry e he
          by_cases hpq : e.2 = nb
          · refine ⟨c, c0 + g.get p0, he1, he2, he3, ?_, ?_⟩
            · rw [hpq, hset]
            · rw [hncost] at himp
              rw [show lo.getD (g.idx nb) none = loAt g lo nb from rfl,
                ← hpq, he4] at himp
              have := cmpONat_lt_oLE himp
              rw [oLE_some_some] at this
              omega
          · exact ⟨c, b, he1, he2, he3, by
              rw [loAt_set_ne hnbin he2 hpq]; exact he4, he5⟩
      · intro p hp hpne hvp b hb
        by_cases hpq : p = nb
        · rw [hpq] at hb ⊢
          rw [hset] at hb
          injection hb with hb
          rw [← hb]
          exact List.mem_cons_self _ _
        · rw [loAt_set_ne hnbin hp hpq] at hb
          exact List.mem_cons_of_mem _ (hm.cover p hp hpne hvp b hb)
      · intro p hp b0 hb0
        by_cases hpq : p = nb
        · rw [hpq] at hb0 ⊢
          refine ⟨c0 + g.get p0, ?_, hset⟩
          rw [hncost] at himp
          rw [show lo.getD (g.idx nb) none = loAt g lo nb from rfl, hb0]
            at himp
          have hlt2 := cmpONat_lt_oLE himp
          rw [oLE_some_some] at hlt2
          omega
        · rw [loAt_set_ne hnbin hp hpq]
          exact ⟨b0, le_refl _, hb0⟩
      · intro q hq
        injection hq with hq
        subst hq
        exact ⟨c0 + g.get p0, hset, le_refl _⟩
    · -- no improvement
      rw [if_neg himp]
      have hole := cmpONat_nlt_oLE himp
      have hsome : ∃ b, lo.getD (g.idx nb) none = some b ∧
          b ≤ c0 + g.get p0 := by
        cases hlo : lo.getD (g.idx nb) none with
        | none =>
          rw [show Option.map (· + g.get p0) (some c0) =
            some (c0 + g.get p0) from rfl, hlo] at hole
          cases hole
        | some b =>
          rw [show Option.map (· + g.get p0) (some c0) =
            some (c0 + g.get p0) from rfl, hlo] at hole
          exact ⟨b, rfl, hole⟩
      obtain ⟨b, hb, hble⟩ := hsome
      rw [hb]
      refine ⟨⟨hm.len, hm.sound, hm.decr, hm.stable, ?_, ?_⟩,
        fun p hp b0 hb0 => ⟨b0, le_refl _, hb0⟩, ?_⟩
      · intro e he
        rcases List.mem_cons.mp he with rfl | he
        · exact ⟨b, b, rfl, hnbin,
            hm.sound nb hnbin b hb, hb, le_refl _⟩
        · exact hm.entry e he
      · intro p hp hpne hvp b2 hb2
        exact List.mem_cons_of_mem _ (hm.cover p hp hpne hvp b2 hb2)
      · intro q hq
        injection hq with hq
        subst hq
        exact ⟨b, hb, hble⟩

theorem hMid_fold {g : GridA} {s0 : HState} (hinv : HInv g s0)
    {p0 : Pos} {c0 : Nat}
    (hr0 : HReach g p0 c0) (hl0 : IsLeast {c | HReach g p0 c} c0)
    (moves : List (Int × Int)) (hmoves : ∀ mv ∈ moves, mv ∈ hMoves)
    {lo : List (Option Nat)} {fr : List (Option Nat × Pos)}
    (hm : HMid g s0 p0 c0 lo fr) :
    HMid g s0 p0 c0 (moves.foldl (hRelax g p0 (some c0)) (lo, fr)).1
        (moves.foldl (hRelax g p0 (some c0)) (lo, fr)).2 ∧
      (∀ p, g.inB p → ∀ b0, loAt g lo p = some b0 →
        ∃ b, b ≤ b0 ∧
          loAt g (moves.foldl (hRelax g p0 (some c0)) (lo, fr)).1 p = some b) ∧
      (∀ mv ∈ moves, ∀ q, shiftPosIn g p0 mv = some q →
        ∃ b', loAt g (moves.foldl (hRelax g p0 (some c0)) (lo, fr)).1 q
            = some b' ∧ b' ≤ c0 + g.get p0) := by
  induction moves generalizing lo fr with
  | nil =>
    refine ⟨hm, fun p hp b0 hb0 => ⟨b0, le_refl _, hb0⟩, ?_⟩
    intro mv hmv
    cases hmv
  | cons mv rest ih =>
    obtain ⟨hm1, hdec1, hbnd1⟩ :=
      hMid_step hinv hr0 hl0 hm (hmoves mv (by simp))
    obtain ⟨hm2, hdec2, hbnd2⟩ :=
      ih (fun m hmm => hmoves m (by simp [hmm])) hm1
    rw [List.foldl_cons]
    refine ⟨hm2, ?_, ?_⟩
    · intro p hp b0 hb0
      obtain ⟨b1, hb1le, hb1⟩ := hdec1 p hp b0 hb0
      obtain ⟨b2, hb2le, hb2⟩ := hdec2 p hp b1 hb1
      exact ⟨b2, le_trans hb2le hb1le, hb2⟩
    · intro m hmm q hq
      rcases List.mem_cons.mp hmm with rfl | hmm2
      · obtain ⟨b', hb', hb'le⟩ := hbnd1 q hq
        obtain ⟨b2, hb2le, hb2⟩ := hdec2 q (shiftPosIn_spec (hmoves m (by simp)) hq).1.1 b' hb'
        exact ⟨b2, hb2, le_trans hb2le hb'le⟩
      · exact hbnd2 m hmm2 q hq

theorem hcross {g : GridA} {s : HState} (hg : g.WF) (hinv : HInv g s)
    {u : Pos} {cu : Nat} (hr : HReach g u cu) :
    visAt g s.visitedH u = false →
      ∃ e ∈ s.frontierH, ∃ ce, e.1 = some ce ∧ ce ≤ cu := by
  induction hr with
  | init =>
    intro hvu
    have htin : g.inB (gTarget g) := by
      obtain ⟨h1, h2, -, -⟩ := hg
      exact ⟨by simp [gTarget]; omega, by simp [gTarget]; omega⟩
    exact ⟨(some 0, gTarget g),
      hinv.fr_cover (gTarget g) htin hvu 0 hinv.lo_t, 0, rfl, le_refl _⟩
  | step hp hadj ih =>
    rename_i p c q
    intro hvu
    by_cases hv : visAt g s.visitedH p = true
    · obtain ⟨b', bp, hq', hp', hle⟩ :=
        hinv.vis_relax p (hreach_inB hg hp) hv q hadj
      obtain ⟨bpL, hbpL, hleast⟩ := hinv.vis_dist p (hreach_inB hg hp) hv
      have hbp : bp = bpL := by
        rw [hp'] at hbpL
        injection hbpL
      have hbc : bpL ≤ c := hleast.2 hp
      exact ⟨(some b', q), hinv.fr_cover q hadj.1 hvu b' hq', b', rfl,
        by omega⟩
    · obtain ⟨e, he, ce, hce, hcele⟩ := ih (Bool.not_eq_true _ ▸ hv)
      exact ⟨e, he, ce, hce, by omega⟩

theorem hpop_exact {g : GridA} {s : HState} (hg : g.WF) (hinv : HInv g s)
    {f0 : Option Nat} {p0 : Pos} {rest : List (Option Nat × Pos)}
    (hpop : popMin cmpHEntry s.frontierH = some ((f0, p0), rest))
    (hunvis : visAt g s.visitedH p0 = false) :
    ∃ c0, f0 = some c0 ∧ IsLeast {c | HReach g p0 c} c0 ∧
      loAt g s.lowest_cost p0 = some c0 ∧ g.inB p0 := by
  obtain ⟨hmem, hrest⟩ := popMin_eq _ hpop
  obtain ⟨c0, b, hf, hin, hre, hlo, hble⟩ := hinv.fr_entry _ hmem
  dsimp only at hf hin hre hlo
  have hmin : ∀ cp, HReach g p0 cp → c0 ≤ cp := by
    intro cp hcp
    obtain ⟨e, he, ce, hce, hcele⟩ := hcross hg hinv hcp hunvis
    have hle := popMin_fst_le Prod.fst cmpHEntry cmpHEntry_fst_lt
      cmpHEntry_fst_nlt hpop e he
    rw [hce] at hle
    dsimp only at hle
    rw [hf, oLE_some_some] at hle
    omega
  have hb : b = c0 := by
    have := hmin b (hinv.lo_sound p0 hin b hlo)
    omega
  exact ⟨c0, hf, ⟨hre, hmin⟩, hb ▸ hlo, hin⟩

theorem visAt_set {g : GridA} {vis : List Bool}
    (hlen : vis.length = g.height * g.width) {p0 p : Pos}
    (hp0 : g.inB p0) (hp : g.inB p) :
    visAt g (vis.set (g.idx p0) true) p =
      if p = p0 then true else visAt g vis p := by
  by_cases hpq : p = p0
  · subst hpq
    rw [if_pos rfl]
    exact getD_set_self vis (g.idx p) true false
      (by rw [hlen]; exact idx_lt hp.1 hp.2)
  · rw [if_neg hpq]
    exact getD_set_ne vis true false (idx_ne_of_ne hp0 hp
      (fun hh => hpq hh.symm))

theorem hstep_preserve {g : GridA} {s s' : HState} (hg : g.WF)
    (hinv : HInv g s) (hstep : hStepOnce g s = some s') : HInv g s' := by
  rw [hStepOnce] at hstep
  cases hpop : popMin cmpHEntry s.frontierH with
  | none => rw [hpop] at hstep; cases hstep
  | some er =>
    obtain ⟨⟨f0, p0⟩, rest⟩ := er
    rw [hpop] at hstep
    dsimp only at hstep
    obtain ⟨hmem, hrest⟩ := popMin_eq _ hpop
    by_cases hvis : s.visitedH.getD (g.idx p0) false
    · rw [if_pos hvis] at hstep
      injection hstep with hstep
      subst hstep
      have hfvis : visAt g s.visitedH p0 = true := hvis
      refine ⟨hinv.lolen, hinv.vislen, hinv.vis_dist, hinv.vis_relax,
        ?_, ?_, hinv.lo_sound, hinv.lo_t⟩
      · intro e he
        refine hinv.fr_entry e ?_
        rw [hrest] at he
        exact mem_of_mem_erase2 he
      · intro p hp hpv b hb
        have hne : ((some b : Option Nat), p) ≠ (f0, p0) := by
          intro hcon
          have hpp : p = p0 := congrArg Prod.snd hcon
          rw [hpp] at hpv
          rw [hpv] at hfvis
          cases hfvis
        rw [hrest]
        exact (mem_erase_iff_of_ne hne).mpr (hinv.fr_cover p hp hpv b hb)
    · rw [if_neg hvis] at hstep
      have hunvis : visAt g s.visitedH p0 = false := by
        rw [visAt]
        exact Bool.not_eq_true _ ▸ hvis
      obtain ⟨c0, hf0, hl0, hlo0, hp0in⟩ := hpop_exact hg hinv hpop hunvis
      subst hf0
      have hbase : HMid g s p0 c0 s.lowest_cost rest := by
        refine ⟨hinv.lolen, hinv.lo_sound,
          fun p hp b0 hb0 => ⟨b0, le_refl _, hb0⟩,
          fun p hp hv => rfl, ?_, ?_⟩
        · intro e he
          refine hinv.fr_entry e ?_
          rw [hrest] at he
          exact mem_of_mem_erase2 he
        · intro p hp hpne hpv b hb
          have hne : ((some b : Option Nat), p) ≠ (some c0, p0) := by
            intro hcon
            exact hpne (congrArg Prod.snd hcon)
          rw [hrest]
          exact (mem_erase_iff_of_ne hne).mpr (hinv.fr_cover p hp hpv b hb)
      obtain ⟨hmfin, hdec, hbnd⟩ :=
        hMid_fold hinv hl0.1 hl0 hMoves (fun mv h => h) hbase
      cases hfld : hMoves.foldl (hRelax g p0 (some c0))
          (s.lowest_cost, rest) with
      | mk lo2 fr2 =>
        rw [hfld] at hstep hmfin hdec hbnd
        injection hstep with hstep
        subst hstep
        dsimp only at hmfin hdec hbnd ⊢
        have hvset : ∀ p, g.inB p →
            visAt g (s.visitedH.set (g.idx p0) true) p =
              if p = p0 then true else visAt g s.visitedH p :=
          fun p hp => visAt_set hinv.vislen hp0in hp
        refine ⟨hmfin.len, by rw [List.length_set]; exact hinv.vislen,
          ?_, ?_, hmfin.entry, ?_, hmfin.sound, ?_⟩
        · -- vis_dist
          intro p hp hpv
          rw [hvset p hp] at hpv
          by_cases hpq : p = p0
          · subst hpq
            rw [hmfin.stable p hp (Or.inr rfl), hlo0]
            exact ⟨c0, rfl, hl0⟩
          · rw [if_neg hpq] at hpv
            obtain ⟨b, hb, hl⟩ := hinv.vis_dist p hp hpv
            rw [hmfin.stable p hp (Or.inl hpv)]
            exact ⟨b, hb, hl⟩
        · -- vis_relax
          intro p hp hpv q hadj
          rw [hvset p hp] at hpv
          by_cases hpq : p = p0
          · subst hpq
            obtain ⟨mv, hmv, hsp⟩ := adjacent_to_move hadj
            obtain ⟨b', hb', hble⟩ := hbnd mv hmv q hsp
            refine ⟨b', c0, hb', ?_, hble⟩
            rw [hmfin.stable p hp (Or.inr rfl)]
            exact hlo0
          · rw [if_neg hpq] at hpv
            obtain ⟨b', bp, hq', hp', hle⟩ := hinv.vis_relax p hp hpv q hadj
            obtain ⟨b2, hb2le, hb2⟩ := hdec q hadj.1 b' hq'
            refine ⟨b2, bp, hb2, ?_, by omega⟩
            rw [hmfin.stable p hp (Or.inl hpv)]
            exact hp'
        · -- fr_cover
          intro p hp hpv b hb
          rw [hvset p hp] at hpv
          by_cases hpq : p = p0
          · rw [if_pos hpq] at hpv
            cases hpv
          · rw [if_neg hpq] at hpv
            exact hmfin.cover p hp hpq hpv b hb
        · -- lo_t
          have htin : g.inB (gTarget g) := by
            obtain ⟨h1, h2, -, -⟩ := hg
            exact ⟨by simp [gTarget]; omega, by simp [gTarget]; omega⟩
          obtain ⟨b, hble, hb⟩ := hdec (gTarget g) htin 0 hinv.lo_t
          have : b = 0 := by omega
          rw [← this]
          exact hb

theorem hRelax_len (g : GridA) (p0 : Pos) (cost : Option Nat)
    (st : List (Option Nat) × List (Option Nat × Pos)) (mv : Int × Int) :
    (hRelax g p0 cost st mv).2.length ≤ st.2.length + 1 := by
  cases hsp : shiftPosIn g p0 mv with
  | none =>
    rw [hRelax, hsp]
    show st.2.length ≤ st.2.length + 1
    omega
  | some nb => rw [hRelax, hsp]; dsimp only; simp

theorem hfold_len {g : GridA} {p0 : Pos} {cost : Option Nat}
    (moves : List (Int × Int)) :
    ∀ st : List (Option Nat) × List (Option Nat × Pos),
      (moves.foldl (hRelax g p0 cost) st).2.length ≤
        st.2.length + moves.length := by
  induction moves with
  | nil => intro st; simp
  | cons mv rest ih =>
    intro st
    rw [List.foldl_cons]
    have h1 := hRelax_len g p0 cost st mv
    have h2 := ih (hRelax g p0 cost st mv)
    simp only [List.length_cons]
    omega

theorem hstep_phi {g : GridA} {s s' : HState} (hg : g.WF)
    (hinv : HInv g s) (hstep : hStepOnce g s = some s') :
    hPhi s' < hPhi s := by
  rw [hStepOnce] at hstep
  cases hpop : popMin cmpHEntry s.frontierH with
  | none => rw [hpop] at hstep; cases hstep
  | some er =>
    obtain ⟨⟨f0, p0⟩, rest⟩ := er
    rw [hpop] at hstep
    dsimp only at hstep
    obtain ⟨hmem, hrest⟩ := popMin_eq _ hpop
    have hlen : rest.length + 1 = s.frontierH.length := by
      rw [hrest]
      exact length_erase_of_mem2 hmem
    by_cases hvis : s.visitedH.getD (g.idx p0) false
    · rw [if_pos hvis] at hstep
      injection hstep with hstep
      subst hstep
      rw [hPhi, hPhi]
      dsimp only
      omega
    · rw [if_neg hvis] at hstep
      obtain ⟨c0, b0, hf, hin, -, -, -⟩ := hinv.fr_entry _ hmem
      dsimp only at hf hin
      have hvf : s.visitedH.getD (g.idx p0) false = false :=
        Bool.not_eq_true _ ▸ hvis
      have hcount := count_false_set_true s.visitedH (g.idx p0) hvf
        (by rw [hinv.vislen]; exact idx_lt hin.1 hin.2)
      cases hfld : hMoves.foldl (hRelax g p0 f0) (s.lowest_cost, rest) with
      | mk lo2 fr2 =>
        rw [hfld] at hstep
        injection hstep with hstep
        subst hstep
        have hfr2 := @hfold_len g p0 f0 hMoves
          (s.lowest_cost, rest)
        rw [hfld] at hfr2
        dsimp only at hfr2
        rw [hPhi, hPhi]
        dsimp only
        rw [hMoves] at hfr2
        simp only [List.length_cons, List.length_nil] at hfr2
        omega

theorem hLoop_exact {g : GridA} (hg : g.WF) :
    ∀ (fuel : Nat) (s : HState), HInv g s → hPhi s < fuel →
      ∀ p, g.inB p →
        ((∃ c, HReach g p c) →
          ∃ b, loAt g (hLoop g fuel s) p = some b ∧
            IsLeast {c | HReach g p c} b) ∧
        ((¬ ∃ c, HReach g p c) → loAt g (hLoop g fuel s) p = none) := by
  intro fuel
  induction fuel with
  | zero =>
    intro s _ hf
    omega
  | succ n ih =>
    intro s hinv hf p hp
    rw [hLoop]
    cases hstep : hStepOnce g s with
    | none =>
      dsimp only
      have hF : s.frontierH = [] := by
        rw [hStepOnce] at hstep
        cases hpop : popMin cmpHEntry s.frontierH with
        | none => exact popMin_none _ hpop
        | some er =>
          obtain ⟨⟨f0, p0⟩, rest⟩ := er
          rw [hpop] at hstep
          dsimp only at hstep
          by_cases hvis : s.visitedH.getD (g.idx p0) false
          · rw [if_pos hvis] at hstep
            cases hstep
          · rw [if_neg hvis] at hstep
            cases hfld : hMoves.foldl (hRelax g p0 f0)
                (s.lowest_cost, rest) with
            | mk lo2 fr2 =>
              rw [hfld] at hstep
              cases hstep
      by_cases hv : visAt g s.visitedH p = true
      · obtain ⟨b, hb, hl⟩ := hinv.vis_dist p hp hv
        exact ⟨fun _ => ⟨b, hb, hl⟩, fun hnr => absurd ⟨b, hl.1⟩ hnr⟩
      · have hv2 : visAt g s.visitedH p = false := Bool.not_eq_true _ ▸ hv
        have hnone : loAt g s.lowest_cost p = none := by
          cases hlo : loAt g s.lowest_cost p with
          | none => rfl
          | some b =>
            have hm := hinv.fr_cover p hp hv2 b hlo
            rw [hF] at hm
            cases hm
        refine ⟨?_, fun _ => hnone⟩
        rintro ⟨c, hc⟩
        obtain ⟨e, he, -⟩ := hcross hg hinv hc hv2
        rw [hF] at he
        cases he
    | some s' =>
      dsimp only
      exact ih s' (hstep_preserve hg hinv hstep)
        (by have := hstep_phi hg hinv hstep; omega) p hp

theorem gTarget_inB {g : GridA} (hg : g.WF) : g.inB (gTarget g) := by
  obtain ⟨h1, h2, -, -⟩ := hg
  constructor
  · show g.height - 1 < g.height
    omega
  · show g.width - 1 < g.width
    omega

theorem hInit_inv {g : GridA} (hg : g.WF) : HInv g (hInit g) := by
  have htin : g.inB (gTarget g) := gTarget_inB hg
  have hidxlt : g.idx (gTarget g) < g.height * g.width :=
    idx_lt htin.1 htin.2
  have hloAt : ∀ p, g.inB p → loAt g (hInit g).lowest_cost p =
      if p = gTarget g then some 0 else none := by
    intro p hp
    by_cases hpt : p = gTarget g
    · subst hpt
      rw [if_pos rfl]
      exact getD_set_self _ _ _ _ (by rw [List.length_replicate]; exact hidxlt)
    · rw [if_neg hpt, hInit]
      dsimp only
      rw [loAt]
      rw [getD_set_ne _ _ _ (idx_ne_of_ne htin hp
        (fun hh => hpt hh.symm))]
      rw [getD_replicate]
      split <;> rfl
  have hvisAt : ∀ p, visAt g (hInit g).visitedH p = false := by
    intro p
    rw [hInit]
    dsimp only
    rw [visAt, getD_replicate]
    split <;> rfl
  have hre0 : HReach g (gTarget g) 0 := HReach.init
  refine ⟨?_, ?_, ?_, ?_, ?_, ?_, ?_, ?_⟩
  · rw [hInit]
    dsimp only
    rw [List.length_set, List.length_replicate]
  · rw [hInit]
    dsimp only
    rw [List.length_replicate]
  · intro p hp hv
    rw [hvisAt p] at hv
    cases hv
  · intro p hp hv
    rw [hvisAt p] at hv
    cases hv
  · intro e he
    rw [hInit] at he
    dsimp only at he
    rcases List.mem_cons.mp he with rfl | he
    · refine ⟨0, 0, rfl, htin, hre0, ?_, le_refl _⟩
      rw [hloAt _ htin, if_pos rfl]
    · cases he
  · intro p hp hv b hb
    rw [hloAt p hp] at hb
    by_cases hpt : p = gTarget g
    · rw [if_pos hpt] at hb
      injection hb with hb
      rw [hInit]
      dsimp only
      rw [hpt, ← hb]
      exact List.mem_cons_self _ _
    · rw [if_neg hpt] at hb
      cases hb
  · intro p hp b hb
    rw [hloAt p hp] at hb
    by_cases hpt : p = gTarget g
    · rw [if_pos hpt] at hb
      injection hb with hb
      rw [hpt, ← hb]
      exact hre0
    · rw [if_neg hpt] at hb
      cases hb
  · rw [hloAt _ htin, if_pos rfl]

theorem findLowest_exact {g : GridA} (hg : g.WF) :
    ∀ p, g.inB p →
      ((∃ c, HReach g p c) →
        ∃ b, loAt g (findLowestCostToTarget g) p = some b ∧
          IsLeast {c | HReach g p c} b) ∧
      ((¬ ∃ c, HReach g p c) →
        loAt g (findLowestCostToTarget g) p = none) := by
  have hphi : hPhi (hInit g) < hFuel g := by
    rw [hPhi, hInit, hFuel]
    dsimp only
    rw [List.count_replicate_self, List.length_cons, List.length_nil]
    omega
  exact hLoop_exact hg (hFuel g) (hInit g) (hInit_inv hg) hphi

theorem upath_iff_hreach {g : GridA} {p : Pos} {c : Nat} :
    UPath g p c ↔ HReach g p c := by
  constructor
  · intro h
    induction h with
    | here => exact HReach.init
    | step hadj hu ih => exact HReach.step ih hadj
  · intro h
    induction h with
    | init => exact UPath.here
    | step hr hadj ih => exact UPath.step hadj ih

theorem reach_all {g : GridA} (hg : g.WF) :
    ∀ p, g.inB p → ∃ c, HReach g p c := by
  suffices h : ∀ k p, g.inB p →
      (g.height - 1 - p.1) + (g.width - 1 - p.2) ≤ k → ∃ c, HReach g p c by
    intro p hp
    exact h ((g.height - 1 - p.1) + (g.width - 1 - p.2)) p hp (le_refl _)
  intro k
  induction k with
  | zero =>
    intro p hp hk
    obtain ⟨hp1, hp2⟩ := hp
    have hpt : p = (g.height - 1, g.width - 1) := by
      rw [Prod.ext_iff]
      constructor <;> omega
    exact ⟨0, hpt ▸ HReach.init⟩
  | succ n ih =>
    intro p hp hk
    by_cases h1 : p.1 < g.height - 1
    · obtain ⟨c, hc⟩ := ih (p.1 + 1, p.2) ⟨by omega, hp.2⟩ (by
        show g.height - 1 - (p.1 + 1) + (g.width - 1 - p.2) ≤ n
        omega)
      refine ⟨c + g.get (p.1 + 1, p.2), HReach.step hc ⟨hp, ?_⟩⟩
      show (p.1 = (p.1 + 1, p.2).1 + 1 ∧ p.2 = (p.1 + 1, p.2).2) ∨
        ((p.1 + 1, p.2).1 = p.1 + 1 ∧ p.2 = (p.1 + 1, p.2).2) ∨
        (p.1 = (p.1 + 1, p.2).1 ∧ p.2 = (p.1 + 1, p.2).2 + 1) ∨
        (p.1 = (p.1 + 1, p.2).1 ∧ (p.1 + 1, p.2).2 = p.2 + 1)
      omega
    · by_cases h2 : p.2 < g.width - 1
      · obtain ⟨c, hc⟩ := ih (p.1, p.2 + 1) ⟨hp.1, by omega⟩ (by
          show g.height - 1 - p.1 + (g.width - 1 - (p.2 + 1)) ≤ n
          omega)
        refine ⟨c + g.get (p.1, p.2 + 1), HReach.step hc ⟨hp, ?_⟩⟩
        show (p.1 = (p.1, p.2 + 1).1 + 1 ∧ p.2 = (p.1, p.2 + 1).2) ∨
          ((p.1, p.2 + 1).1 = p.1 + 1 ∧ p.2 = (p.1, p.2 + 1).2) ∨
          (p.1 = (p.1, p.2 + 1).1 ∧ p.2 = (p.1, p.2 + 1).2 + 1) ∨
          (p.1 = (p.1, p.2 + 1).1 ∧ (p.1, p.2 + 1).2 = p.2 + 1)
        omega
      · obtain ⟨hp1, hp2⟩ := hp
        have hpt : p = (g.height - 1, g.width - 1) := by
          rw [Prod.ext_iff]
          constructor <;> omega
        exact ⟨0, hpt ▸ HReach.init⟩

theorem crucible_steps_inB {m : Map} {n₀ n : Crucible} {c : Nat}
    (h : StepsFrom m n₀ n c) (h0 : m.grid.inB n₀.pos) : m.grid.inB n.pos := by
  cases h with
  | refl => exact h0
  | tail hs hstep =>
    have := (make_step_bounds_char m).1 _ _ _ hstep
    exact ⟨this.1, this.2.1⟩

theorem crucible_step_adjacent {m : Map} {nm n' : Crucible} {d : Direction}
    (hstep : Crucible.make_step nm m d = some n') (hq : m.grid.inB nm.pos) :
    Adjacent m.grid n'.pos nm.pos := by
  obtain ⟨hn, -, -⟩ := (crucible_make_step_char m nm d).2 n' hstep
  rw [Map.get_neighbour_pos_eq_some] at hn
  obtain ⟨hrel, hb1, hb2⟩ := hn
  rw [Prod.ext_iff] at hrel
  dsimp only at hrel
  refine ⟨hq, ?_⟩
  cases d <;>
  · rw [Direction.dy, Direction.dx] at hrel
    omega

theorem crucible_steps_upath {m : Map} {n₀ n : Crucible} {c : Nat}
    (h : StepsFrom m n₀ n c) (h0 : m.grid.inB n₀.pos) :
    ∀ cc, UPath m.grid n.pos cc → UPath m.grid n₀.pos (c + cc) := by
  induction h with
  | refl =>
    intro cc hu
    simpa using hu
  | tail hs hstep ih =>
    rename_i nm cm d n'
    intro cc hu
    have hadj : Adjacent m.grid n'.pos nm.pos :=
      crucible_step_adjacent hstep (crucible_steps_inB hs h0)
    have h2 : UPath m.grid nm.pos (cc + m.grid.get n'.pos) :=
      UPath.step hadj hu
    have h3 := ih (cc + m.grid.get n'.pos) h2
    have harith : cm + (cc + m.grid.get n'.pos) =
        cm + m.grid.get n'.pos + cc := by omega
    exact harith ▸ h3

/-- C2: the heuristic precomputation is exact: for every well-formed grid
and every cell from which the target is reachable by unconstrained
4-directional movement, the table holds exactly the least unconstrained
cost to the target (and the sentinel for unreachable cells); consequently
the heuristic read for any bounded-run node never exceeds the cost of any
legal bounded-run walk from that node's cell to the target
(admissibility). -/
theorem heuristic_precomputation_exact :
    (∀ g : GridA, g.WF → ∀ p : Pos, p.1 < g.height → p.2 < g.width →
      ((∃ c, UPath g p c) →
        ∃ b, (findLowestCostToTarget g).getD (g.idx p) none = some b ∧
          IsLeast {c | UPath g p c} b) ∧
      ((¬ ∃ c, UPath g p c) →
        (findLowestCostToTarget g).getD (g.idx p) none = none)) ∧
    (∀ m : Map, m.grid.WF →
      m.heur_cost_to_target = findLowestCostToTarget m.grid →
      ∀ (n₀ n : Crucible) (c : Nat), StepsFrom m n₀ n c →
        Crucible.pos n = m.target → m.grid.inB (Crucible.pos n₀) →
        ∀ v, m.heurAt (Crucible.pos n₀) = some v → v ≤ c) := by
  have hset : ∀ (g : GridA) (p : Pos),
      {c | UPath g p c} = {c | HReach g p c} :=
    fun g p => Set.ext (fun c => upath_iff_hreach)
  constructor
  · intro g hg p hp1 hp2
    obtain ⟨hr, hnr⟩ := findLowest_exact hg p ⟨hp1, hp2⟩
    rw [hset g p]
    constructor
    · intro hex
      rw [show (∃ c, UPath g p c) ↔ (∃ c, HReach g p c) from
        exists_congr (fun c => upath_iff_hreach)] at hex
      exact hr hex
    · intro hex
      rw [show (¬ ∃ c, UPath g p c) ↔ (¬ ∃ c, HReach g p c) from
        not_congr (exists_congr (fun c => upath_iff_hreach))] at hex
      exact hnr hex
  · intro m hwf hheur n₀ n c hsteps htarget h0in v hv
    have hu0 : UPath m.grid n.pos 0 := by
      have : n.pos = (m.grid.height - 1, m.grid.width - 1) := htarget
      rw [this]
      exact UPath.here
    have hup := crucible_steps_upath hsteps h0in 0 hu0
    have htab : m.heurAt n₀.pos =
        (findLowestCostToTarget m.grid).getD (m.grid.idx n₀.pos) none := by
      rw [Map.heurAt, hheur]
      rfl
    obtain ⟨hr, -⟩ := findLowest_exact hwf n₀.pos h0in
    obtain ⟨b, hb, hl⟩ := hr ⟨c + 0, upath_iff_hreach.mp hup⟩
    have hvb : v = b := by
      rw [htab] at hv
      rw [show loAt m.grid (findLowestCostToTarget m.grid) n₀.pos =
        (findLowestCostToTarget m.grid).getD (m.grid.idx n₀.pos) none
        from rfl] at hb
      rw [hv] at hb
      injection hb
    have hle := hl.2 (upath_iff_hreach.mp hup)
    omega

theorem heuristic_precomputation_exact_witness :
    map2x2.heurAt (0, 0) = some 6 ∧ (6 : Nat) ≤ 7 := by
  have h1 : StepsFrom map2x2 (⟨(0, 0), Direction.South, 3⟩ : Crucible)
      ⟨(1, 0), Direction.South, 2⟩ 3 :=
    StepsFrom.tail (d := Direction.South) StepsFrom.refl (by rfl)
  have hsteps : StepsFrom map2x2 (⟨(0, 0), Direction.South, 3⟩ : Crucible)
      ⟨(1, 1), Direction.East, 2⟩ 7 :=
    StepsFrom.tail (d := Direction.East) h1 (by rfl)
  refine ⟨by rfl, heuristic_precomputation_exact.2 map2x2
    ⟨by decide, by decide, by decide, by decide⟩ rfl
    _ _ 7 hsteps (by rfl) ⟨by decide, by decide⟩ 6 (by rfl)⟩

end HeurProof

section SearchProof

theorem cmpEntry_fst_lt {α : Type} [DecidableEq α] [SearchNode α]
    {x y : Entry α} (h : cmpEntry x y = .lt) : oLE x.1 y.1 := by
  rw [cmpEntry, then_eq_lt] at h
  rcases h with h | ⟨h, -⟩
  · exact cmpONat_lt_oLE h
  · exact cmpONat_eq_oLE h

theorem cmpEntry_fst_nlt {α : Type} [DecidableEq α] [SearchNode α]
    {x y : Entry α} (h : ¬ cmpEntry x y = .lt) : oLE y.1 x.1 := by
  rw [cmpEntry, then_eq_lt] at h
  push_neg at h
  by_cases h1 : cmpONat x.1 y.1 = .lt
  · exact absurd h1 (by simp [h])
  · exact cmpONat_nlt_oLE h1

theorem alookup_ainsert_self {α β : Type} [DecidableEq α]
    (l : List (α × β)) (k : α) (v : β) :
    alookup (ainsert l k v) k = some v := by
  induction l with
  | nil => simp [ainsert, alookup]
  | cons x xs ih =>
    obtain ⟨xk, xv⟩ := x
    rw [ainsert]
    by_cases hk : xk = k
    · rw [if_pos hk, alookup, if_pos rfl]
    · rw [if_neg hk, alookup, if_neg hk]
      exact ih

theorem alookup_ainsert_ne {α β : Type} [DecidableEq α]
    (l : List (α × β)) {k k' : α} (v : β) (h : k' ≠ k) :
    alookup (ainsert l k v) k' = alookup l k' := by
  have h2 : ¬ k = k' := fun he => h he.symm
  induction l with
  | nil => simp [ainsert, alookup, h2]
  | cons x xs ih =>
    obtain ⟨xk, xv⟩ := x
    rw [ainsert]
    by_cases hk : xk = k
    · subst hk
      rw [if_pos rfl, alookup, alookup, if_neg h2, if_neg h2]
    · rw [if_neg hk, alookup, alookup]
      by_cases hk' : xk = k'
      · rw [if_pos hk', if_pos hk']
      · rw [if_neg hk', if_neg hk']
        exact ih

theorem filter_length_le {γ : Type} (l : List γ) (p q : γ → Bool)
    (himp : ∀ x ∈ l, q x = true → p x = true) :
    (l.filter q).length ≤ (l.filter p).length := by
  induction l with
  | nil => simp
  | cons a t ih =>
    have iht := ih (fun x hx => himp x (List.mem_cons_of_mem a hx))
    by_cases hq : q a = true
    · rw [List.filter_cons, if_pos hq, List.filter_cons,
        if_pos (himp a (List.mem_cons_self a t) hq)]
      simpa using iht
    · rw [List.filter_cons, if_neg hq, List.filter_cons]
      by_cases hp : p a = true
      · rw [if_pos hp]
        exact Nat.le_succ_of_le iht
      · rw [if_neg hp]
        exact iht

theorem filter_length_lt {γ : Type} (l : List γ) (p q : γ → Bool)
    (himp : ∀ x ∈ l, q x = true → p x = true) {x0 : γ} (hx0 : x0 ∈ l)
    (hp : p x0 = true) (hq : q x0 = false) :
    (l.filter q).length < (l.filter p).length := by
  induction l with
  | nil => cases hx0
  | cons a t ih =>
    have himpt : ∀ x ∈ t, q x = true → p x = true :=
      fun x hx => himp x (List.mem_cons_of_mem a hx)
    rcases List.mem_cons.mp hx0 with rfl | hmem
    · rw [List.filter_cons, if_neg (by simp [hq]), List.filter_cons,
        if_pos hp]
      exact Nat.lt_succ_of_le (filter_length_le t p q himpt)
    · have iht := ih himpt hmem
      by_cases hqa : q a = true
      · rw [List.filter_cons, if_pos hqa, List.filter_cons,
          if_pos (himp a (List.mem_cons_self a t) hqa)]
        simpa using iht
      · rw [List.filter_cons, if_neg hqa, List.filter_cons]
        by_cases hpa : p a = true
        · rw [if_pos hpa]
          exact Nat.lt_succ_of_lt iht
        · rw [if_neg hpa]
          exact iht

theorem nodup_erase2 {β : Type} [DecidableEq β] {a : β} {l : List β}
    (h : l.Nodup) : (l.erase a).Nodup := by
  induction l with
  | nil => simp
  | cons x xs ih =>
    rw [List.erase_cons]
    rcases List.nodup_cons.mp h with ⟨hx, hxs⟩
    by_cases hxa : x = a
    · rw [if_pos (by simp [hxa])]
      exact hxs
    · rw [if_neg (by simp [hxa])]
      exact List.nodup_cons.mpr
        ⟨fun hm => hx (mem_of_mem_erase2 hm), ih hxs⟩

theorem not_mem_erase_self {β : Type} [DecidableEq β] {a : β} {l : List β}
    (h : l.Nodup) : a ∉ l.erase a := by
  induction l with
  | nil => simp
  | cons x xs ih =>
    rw [List.erase_cons]
    rcases List.nodup_cons.mp h with ⟨hx, hxs⟩
    by_cases hxa : x = a
    · rw [if_pos (by simp [hxa])]
      exact hxa ▸ hx
    · rw [if_neg (by simp [hxa])]
      intro hm
      rcases List.mem_cons.mp hm with rfl | hm2
      · exact hxa rfl
      · exact ih hxs hm2

/-- Membership in the flattened neighbour candidates is exactly being a
successor in some direction. -/
theorem mem_neighbours {α : Type} [DecidableEq α] [SearchNode α]
    {m : Map} {n nb : α} :
    nb ∈ (get_all_neighbours n m).reduceOption ↔
      ∃ d, SearchNode.make_step n m d = some nb := by
  rw [get_all_neighbours, List.reduceOption_mem_iff]
  constructor
  · intro h
    simp only [List.mem_cons, List.not_mem_nil, or_false] at h
    rcases h with h | h | h | h
    · exact ⟨.North, h.symm⟩
    · exact ⟨.East, h.symm⟩
    · exact ⟨.South, h.symm⟩
    · exact ⟨.West, h.symm⟩
  · rintro ⟨d, hd⟩
    cases d <;> simp [hd.symm]

/-- Any node reached by legal steps from an in-bounds node is in bounds. -/
theorem steps_pos_inB {α : Type} [DecidableEq α] [SearchNode α] {m : Map}
    (PF : PolicyFacts α m) {n₀ n : α} {c : Nat} (h : StepsFrom m n₀ n c)
    (h0 : m.grid.inB (SearchNode.pos n₀)) :
    m.grid.inB (SearchNode.pos n) := by
  cases h with
  | refl => exact h0
  | tail hs hstep => exact PF.hstep_inB _ _ _ hstep

/-- Telescoped consistency: along any legal walk, the heuristic at the
start is at most the walk's cost plus the heuristic at the end. -/
theorem steps_heur_le {α : Type} [DecidableEq α] [SearchNode α] {m : Map}
    (PF : PolicyFacts α m) {u n : α} {c : Nat} (h : StepsFrom m u n c)
    (hu : m.grid.inB (SearchNode.pos u)) :
    ∀ hu' hn', m.heurAt (SearchNode.pos u) = some hu' →
      m.heurAt (SearchNode.pos n) = some hn' → hu' ≤ c + hn' := by
  induction h with
  | refl =>
    intro hu' hn' h1 h2
    rw [h1] at h2
    injection h2 with h2
    omega
  | tail hs hstep ih =>
    rename_i np cp d n'
    intro hu' hn' h1 h2
    have hnp : m.grid.inB (SearchNode.pos np) := steps_pos_inB PF hs hu
    obtain ⟨hp, hhp⟩ := PF.hH_total _ hnp
    have hmid := ih hu' hp h1 hhp
    have hcons := PF.hH_cons _ _ _ hstep hnp hp hn' hhp h2
    omega

/-- Crossing lemma: any legal path from the start ends at a visited node
or crosses the frontier at an entry whose recorded cost, plus the cost of
the remaining walk, is at most the path's cost. -/
theorem across {α : Type} [DecidableEq α] [SearchNode α] {m : Map}
    (PF : PolicyFacts α m) {s : SState α} (inv : AInv m s) {n : α}
    {c : Nat} (h : ReachCost m n c) :
    n ∈ s.visited ∨ ∃ e ∈ s.frontier, ∃ c2,
      StepsFrom m e.2.2 n c2 ∧ e.2.1 + c2 ≤ c := by
  have h' : StepsFrom m (startNode α) n c := h
  clear h
  induction h' with
  | refl =>
    by_cases hv : startNode α ∈ s.visited
    · exact Or.inl hv
    · obtain ⟨f, hf⟩ := inv.fr_cover _ hv 0 inv.bc_start
      exact Or.inr ⟨(f, 0, startNode α), hf, 0, StepsFrom.refl,
        by dsimp only; omega⟩
  | tail hs hstep ih =>
    rename_i np cp d n'
    rcases ih with hv | ⟨e, he, c2, hsteps, hle⟩
    · rcases inv.vis_relax np hv d n' hstep with hv' | ⟨dn, b, hdn, hb, hble⟩
      · exact Or.inl hv'
      · by_cases hv2 : n' ∈ s.visited
        · exact Or.inl hv2
        · obtain ⟨dd, hdd, hleast⟩ := inv.vis_dist np hv
          rw [hdn] at hdd
          injection hdd with hdd
          subst hdd
          have hdcp : dn ≤ cp := hleast.2 hs
          obtain ⟨f, hf⟩ := inv.fr_cover _ hv2 b hb
          exact Or.inr ⟨(f, b, n'), hf, 0, StepsFrom.refl,
            by dsimp only; omega⟩
    · exact Or.inr ⟨e, he, c2 + m.grid.get (SearchNode.pos n'),
        StepsFrom.tail hsteps hstep, by omega⟩

/-- Processing one successor of the popped node preserves the mid-fold
invariant, never decreases recorded costs (in particular the improvement
branch of the source is never taken), does not increase the termination
measure, and leaves the successor either visited or recorded with a cost
at most the popped cost plus its entry cost. -/
theorem amid_step {α : Type} [DecidableEq α] [SearchNode α] {m : Map}
    (PF : PolicyFacts α m) {s0 : SState α} (inv : AInv m s0)
    {f0 : Option Nat} {c0 : Nat} {n0 : α} {rest : List (Entry α)}
    (he0 : (f0, c0, n0) ∈ s0.frontier)
    (hmin : ∀ y ∈ s0.frontier, oLE f0 y.1)
    {fr : List (Entry α)} {bc : List (α × Nat)}
    (mid : AMid m s0 n0 c0 rest fr bc)
    {x : α} {d : Direction} (hd : SearchNode.make_step n0 m d = some x) :
    AMid m s0 n0 c0 rest (processNeighbour m s0.visited c0 (fr, bc) x).1
        (processNeighbour m s0.visited c0 (fr, bc) x).2 ∧
      (processNeighbour m s0.visited c0 (fr, bc) x).1.length +
          5 * remUniv m (processNeighbour m s0.visited c0 (fr, bc) x).2 ≤
        fr.length + 5 * remUniv m bc ∧
      (∀ (n : α) (b : Nat), alookup bc n = some b →
        alookup (processNeighbour m s0.visited c0 (fr, bc) x).2 n = some b) ∧
      (x ∈ s0.visited ∨ ∃ b,
        alookup (processNeighbour m s0.visited c0 (fr, bc) x).2 x = some b ∧
          b ≤ c0 + m.grid.get (SearchNode.pos x)) := by
  obtain ⟨h0, hh0, hf0, hlook0⟩ := inv.fr_entry _ he0
  dsimp only at hh0 hf0 hlook0
  by_cases hxv : x ∈ s0.visited
  · have hpn : processNeighbour m s0.visited c0 (fr, bc) x = (fr, bc) := by
      rw [processNeighbour, if_pos hxv]
    rw [hpn]
    exact ⟨mid, le_refl _, fun n b hb => hb, Or.inl hxv⟩
  · cases hlx : alookup bc x with
    | some b =>
      have hble : b ≤ c0 + m.grid.get (SearchNode.pos x) := by
        rcases mid.look_new x b hlx with hold | ⟨-, -, -, hbeq⟩
        · rcases inv.bc_parent x b hold with hstart |
            ⟨n1, d1, c1, hn1v, hstep1, hc1, hbeq⟩
          · exact absurd hstart (PF.hne_start _ _ _ hd)
          · have hpos : SearchNode.pos n1 = SearchNode.pos n0 :=
              PF.hsame _ _ _ _ _ hstep1 hd
            obtain ⟨-, -, hn1B⟩ := inv.bc_sound _ _ hc1
            obtain ⟨h1, hh1⟩ := PF.hH_total _ hn1B
            have hmono := inv.fmono n1 hn1v _ he0 c1 h1 hc1 hh1
            rw [hf0] at hmono
            have hle' : c1 + h1 ≤ c0 + h0 := oLE_some_some.mp hmono
            rw [hpos, hh0] at hh1
            injection hh1 with hh1
            subst hh1
            have hw := PF.hsame _ _ _ _ _ hd hd
            omega
        · omega
      have hpn : processNeighbour m s0.visited c0 (fr, bc) x = (fr, bc) := by
        rw [processNeighbour, if_neg hxv]
        dsimp only
        rw [hlx]
        exact if_pos hble
      rw [hpn]
      exact ⟨mid, le_refl _, fun n b' hb' => hb', Or.inr ⟨b, hlx, hble⟩⟩
    | none =>
      have hxB : m.grid.inB (SearchNode.pos x) := PF.hstep_inB _ _ _ hd
      obtain ⟨hx, hhx⟩ := PF.hH_total _ hxB
      have hheur : SearchNode.heuristic x m = some hx := by
        rw [PF.hH_eq]
        exact hhx
      have hlxs0 : alookup s0.best_cost x = none := by
        cases hc : alookup s0.best_cost x with
        | none => rfl
        | some b =>
          rw [mid.look_mono x b hc] at hlx
          cases hlx
      have hxne0 : x ≠ n0 := by
        intro he
        rw [he, mid.look_mono n0 c0 hlook0] at hlx
        cases hlx
      have hpn : processNeighbour m s0.visited c0 (fr, bc) x =
          ((Option.map ((c0 + m.grid.get (SearchNode.pos x)) + ·)
              (SearchNode.heuristic x m),
            c0 + m.grid.get (SearchNode.pos x), x) :: fr,
            ainsert bc x (c0 + m.grid.get (SearchNode.pos x))) := by
        rw [processNeighbour, if_neg hxv]
        dsimp only
        rw [hlx]
      rw [hpn]
      dsimp only
      obtain ⟨newl, hsh, hnewl⟩ := mid.fr_shape
      refine ⟨⟨?_, ?_, ?_, ?_, ?_, ?_, ?_, ?_⟩, ?_, ?_, ?_⟩
      · intro n b0 hs0
        have hbc := mid.look_mono n b0 hs0
        have hne : n ≠ x := by
          intro he
          rw [he, hlx] at hbc
          cases hbc
        rw [alookup_ainsert_ne _ _ hne]
        exact hbc
      · intro n b hb'
        by_cases hn : n = x
        · subst hn
          rw [alookup_ainsert_self] at hb'
          injection hb' with hb'
          exact Or.inr ⟨hlxs0, hxv, ⟨d, hd⟩, hb'.symm⟩
        · rw [alookup_ainsert_ne _ _ hn] at hb'
          exact mid.look_new n b hb'
      · refine ⟨(Option.map ((c0 + m.grid.get (SearchNode.pos x)) + ·)
            (SearchNode.heuristic x m),
          c0 + m.grid.get (SearchNode.pos x), x) :: newl, by rw [hsh]; rfl,
          ?_⟩
        intro e he
        rcases List.mem_cons.mp he with rfl | he2
        · exact hlxs0
        · exact hnewl e he2
      · intro e he
        rcases List.mem_cons.mp he with rfl | he2
        · refine ⟨hx, hhx, ?_, ?_⟩
          · rw [hheur]
            rfl
          · exact alookup_ainsert_self _ _ _
        · obtain ⟨h, hh, he1, hlk⟩ := mid.fr_entry2 e he2
          have hne : e.2.2 ≠ x := by
            intro heq
            rw [heq, hlx] at hlk
            cases hlk
          refine ⟨h, hh, he1, ?_⟩
          rw [alookup_ainsert_ne _ _ hne]
          exact hlk
      · intro e he
        rcases List.mem_cons.mp he with rfl | he2
        · exact ⟨hxv, hxne0⟩
        · exact mid.fr_unvis2 e he2
      · intro e1 he1 e2 he2 hnn
        have hnode : ∀ e ∈ fr, e.2.2 ≠ x := by
          intro e he heq
          obtain ⟨-, -, -, hlk⟩ := mid.fr_entry2 e he
          rw [heq, hlx] at hlk
          cases hlk
        rcases List.mem_cons.mp he1 with rfl | hm1 <;>
          rcases List.mem_cons.mp he2 with rfl | hm2
        · rfl
        · exact absurd (by simpa using hnn.symm) (hnode e2 hm2)
        · exact absurd (by simpa using hnn) (hnode e1 hm1)
        · exact mid.fr_inj2 e1 hm1 e2 hm2 hnn
      · refine List.nodup_cons.mpr ⟨?_, mid.fr_nodup2⟩
        intro hmem
        obtain ⟨-, -, -, hlk⟩ := mid.fr_entry2 _ hmem
        dsimp only at hlk
        rw [hlx] at hlk
        cases hlk
      · intro n hnv hnn0 b hb'
        by_cases hn : n = x
        · subst hn
          rw [alookup_ainsert_self] at hb'
          injection hb' with hb'
          exact ⟨Option.map ((c0 + m.grid.get (SearchNode.pos n)) + ·)
            (SearchNode.heuristic n m), by rw [hb']; exact List.mem_cons_self _ _⟩
        · rw [alookup_ainsert_ne _ _ hn] at hb'
          obtain ⟨f, hf⟩ := mid.cover2 n hnv hnn0 b hb'
          exact ⟨f, List.mem_cons_of_mem _ hf⟩
      · have hx_univ : x ∈ SearchNode.univAll (α := α) m := by
          obtain ⟨-, hn0u, -⟩ := inv.bc_sound _ _ hlook0
          exact PF.hclosure _ _ _ hn0u hd
        have hdec : remUniv m (ainsert bc x
            (c0 + m.grid.get (SearchNode.pos x))) < remUniv m bc := by
          refine filter_length_lt _ _ _ ?_ hx_univ ?_ ?_
          · intro n hn hq
            by_cases hnx : n = x
            · subst hnx
              rw [alookup_ainsert_self] at hq
              cases hq
            · rw [alookup_ainsert_ne _ _ hnx] at hq
              exact hq
          · rw [hlx]
            rfl
          · rw [alookup_ainsert_self]
            rfl
        simp only [List.length_cons]
        omega
      · intro n b hb
        have hne : n ≠ x := by
          intro he
          rw [he, hlx] at hb
          cases hb
        rw [alookup_ainsert_ne _ _ hne]
        exact hb
      · exact Or.inr ⟨c0 + m.grid.get (SearchNode.pos x),
          alookup_ainsert_self _ _ _, le_refl _⟩

/-- Folding the neighbour processing over any list of successors of the
popped node preserves the mid-fold invariant, does not increase the
termination measure, preserves recorded costs, and leaves every listed
successor either visited or recorded within the relaxation bound. -/
theorem amid_fold {α : Type} [DecidableEq α] [SearchNode α] {m : Map}
    (PF : PolicyFacts α m) {s0 : SState α} (inv : AInv m s0)
    {f0 : Option Nat} {c0 : Nat} {n0 : α} {rest : List (Entry α)}
    (he0 : (f0, c0, n0) ∈ s0.frontier)
    (hmin : ∀ y ∈ s0.frontier, oLE f0 y.1) :
    ∀ (L : List α),
      (∀ nb ∈ L, ∃ d, SearchNode.make_step n0 m d = some nb) →
      ∀ (fr : List (Entry α)) (bc : List (α × Nat)),
        AMid m s0 n0 c0 rest fr bc →
        AMid m s0 n0 c0 rest
            (L.foldl (processNeighbour m s0.visited c0) (fr, bc)).1
            (L.foldl (processNeighbour m s0.visited c0) (fr, bc)).2 ∧
          (L.foldl (processNeighbour m s0.visited c0) (fr, bc)).1.length +
              5 * remUniv m
                (L.foldl (processNeighbour m s0.visited c0) (fr, bc)).2 ≤
            fr.length + 5 * remUniv m bc ∧
          (∀ (n : α) (b : Nat), alookup bc n = some b →
            alookup (L.foldl (processNeighbour m s0.visited c0)
              (fr, bc)).2 n = some b) ∧
          (∀ nb ∈ L, nb ∈ s0.visited ∨ ∃ b,
            alookup (L.foldl (processNeighbour m s0.visited c0)
                (fr, bc)).2 nb = some b ∧
              b ≤ c0 + m.grid.get (SearchNode.pos nb)) := by
  intro L
  induction L with
  | nil =>
    intro hL fr bc mid
    exact ⟨mid, le_refl _, fun n b hb => hb, fun nb hnb => absurd hnb
      (List.not_mem_nil nb)⟩
  | cons x xs ih =>
    intro hL fr bc mid
    obtain ⟨d, hd⟩ := hL x (List.mem_cons_self x xs)
    obtain ⟨mid1, hlen1, hmono1, hx1⟩ := amid_step PF inv he0 hmin mid hd
    cases hp : processNeighbour m s0.visited c0 (fr, bc) x with
    | mk fr1 bc1 =>
      rw [hp] at mid1 hlen1 hmono1 hx1
      dsimp only at mid1 hlen1 hmono1 hx1
      have hfold : (x :: xs).foldl (processNeighbour m s0.visited c0)
          (fr, bc) = xs.foldl (processNeighbour m s0.visited c0)
          (fr1, bc1) := by
        rw [List.foldl_cons, hp]
      rw [hfold]
      obtain ⟨mid2, hlen2, hmono2, hxs2⟩ := ih
        (fun nb hnb => hL nb (List.mem_cons_of_mem x hnb)) fr1 bc1 mid1
      refine ⟨mid2, by omega, fun n b hb => hmono2 n b (hmono1 n b hb), ?_⟩
      intro nb hnb
      rcases List.mem_cons.mp hnb with rfl | hnb2
      · rcases hx1 with hv | ⟨b, hb, hble⟩
        · exact Or.inl hv
        · exact Or.inr ⟨b, hmono2 nb b hb, hble⟩
      · exact hxs2 nb hnb2

/-- The state just after popping the minimal frontier entry satisfies the
mid-fold invariant. -/
theorem amid_init {α : Type} [DecidableEq α] [SearchNode α] {m : Map}
    {s0 : SState α} (inv : AInv m s0)
    {f0 : Option Nat} {c0 : Nat} {n0 : α} {rest : List (Entry α)}
    (hpop : popMin cmpEntry s0.frontier = some ((f0, c0, n0), rest)) :
    AMid m s0 n0 c0 rest rest s0.best_cost := by
  obtain ⟨he0, hrest⟩ := popMin_eq _ hpop
  have hsubr : ∀ e ∈ rest, e ∈ s0.frontier := by
    intro e he
    rw [hrest] at he
    exact mem_of_mem_erase2 he
  have hne0 : (f0, c0, n0) ∉ rest := by
    rw [hrest]
    exact not_mem_erase_self inv.fr_nodup
  refine ⟨fun n b0 hb0 => hb0, fun n b hb => Or.inl hb, ⟨[], rfl,
    by simp⟩, fun e he => inv.fr_entry e (hsubr e he), ?_,
    fun e1 he1 e2 he2 => inv.fr_inj e1 (hsubr e1 he1) e2 (hsubr e2 he2),
    hrest ▸ nodup_erase2 inv.fr_nodup, ?_⟩
  · intro e he
    refine ⟨inv.fr_unvis e (hsubr e he), ?_⟩
    intro heq
    have : e = (f0, c0, n0) :=
      inv.fr_inj e (hsubr e he) (f0, c0, n0) he0 heq
    rw [this] at he
    exact hne0 he
  · intro n hnv hnn0 b hb
    obtain ⟨f, hf⟩ := inv.fr_cover n hnv b hb
    refine ⟨f, ?_⟩
    rw [hrest]
    have hneq : ((f, b, n) : Entry α) ≠ (f0, c0, n0) := by
      intro heq
      injection heq with h1 h2
      injection h2 with h3 h4
      exact hnn0 h4
    exact (mem_erase_iff_of_ne hneq).mpr hf

/-- The popped minimal frontier entry carries the exact least path cost of
its node. -/
theorem pop_exact {α : Type} [DecidableEq α] [SearchNode α] {m : Map}
    (PF : PolicyFacts α m) {s0 : SState α} (inv : AInv m s0)
    {f0 : Option Nat} {c0 : Nat} {n0 : α} {rest : List (Entry α)}
    (hpop : popMin cmpEntry s0.frontier = some ((f0, c0, n0), rest)) :
    IsLeast {c | ReachCost m n0 c} c0 := by
  have he0 := (popMin_eq _ hpop).1
  have hmin := popMin_fst_le Prod.fst cmpEntry
    (fun x y h => cmpEntry_fst_lt h) (fun x y h => cmpEntry_fst_nlt h) hpop
  obtain ⟨h0, hh0, hf0, hlook0⟩ := inv.fr_entry _ he0
  dsimp only at hh0 hf0 hlook0
  constructor
  · exact (inv.bc_sound _ _ hlook0).1
  · intro c hc
    rcases across PF inv hc with hv | ⟨e, he, c2, hsteps, hle⟩
    · exact absurd hv (inv.fr_unvis _ he0)
    · obtain ⟨hE, hhE, hfe, hlke⟩ := inv.fr_entry e he
      have heB : m.grid.inB (SearchNode.pos e.2.2) :=
        (inv.bc_sound _ _ hlke).2.2
      have htel := steps_heur_le PF hsteps heB hE h0 hhE hh0
      have hm := hmin e he
      rw [hf0, hfe] at hm
      have hle2 : c0 + h0 ≤ e.2.1 + hE := oLE_some_some.mp hm
      omega

/-- One expanding iteration of the A* loop preserves the loop invariant
and strictly decreases the termination measure. -/
theorem ainv_step {α : Type} [DecidableEq α] [SearchNode α] {m : Map}
    (PF : PolicyFacts α m) {s s' : SState α} (inv : AInv m s)
    (hstep : stepOnce m s = .next s') :
    AInv m s' ∧ aPhi m s' < aPhi m s := by
  rw [stepOnce] at hstep
  cases hpop : popMin cmpEntry s.frontier with
  | none =>
    rw [hpop] at hstep
    cases hstep
  | some pr =>
    obtain ⟨⟨f0, c0, n0⟩, rest⟩ := pr
    rw [hpop] at hstep
    dsimp only at hstep
    by_cases hacc : SearchNode.pos n0 = m.target ∧
        SearchNode.can_stop n0 = true
    · rw [if_pos hacc] at hstep
      cases hstep
    · rw [if_neg hacc] at hstep
      injection hstep with hstep
      have he0 := (popMin_eq _ hpop).1
      have hrest := (popMin_eq _ hpop).2
      have hminF := popMin_fst_le Prod.fst cmpEntry
        (fun x y h => cmpEntry_fst_lt h) (fun x y h => cmpEntry_fst_nlt h)
        hpop
      obtain ⟨h0, hh0, hf0, hlook0⟩ := inv.fr_entry _ he0
      dsimp only at hh0 hf0 hlook0
      have hLmem : ∀ nb ∈ (get_all_neighbours n0 m).reduceOption,
          ∃ d, SearchNode.make_step n0 m d = some nb :=
        fun nb h => mem_neighbours.mp h
      obtain ⟨midF, hlenF, hmonoF, hrelaxF⟩ := amid_fold PF inv he0 hminF
        (get_all_neighbours n0 m).reduceOption hLmem rest s.best_cost
        (amid_init inv hpop)
      set fb := ((get_all_neighbours n0 m).reduceOption).foldl
        (processNeighbour m s.visited c0) (rest, s.best_cost) with hfb
      have hexact := pop_exact PF inv hpop
      have hlookF : alookup fb.2 n0 = some c0 := hmonoF n0 c0 hlook0
      have hn0_unvis : n0 ∉ s.visited := inv.fr_unvis _ he0
      have hn0B : m.grid.inB (SearchNode.pos n0) :=
        (inv.bc_sound _ _ hlook0).2.2
      have hsubrest : ∀ e ∈ rest, e ∈ s.frontier := by
        intro e he
        rw [hrest] at he
        exact mem_of_mem_erase2 he
      subst hstep
      constructor
      · refine ⟨?_, ?_, ?_, midF.fr_entry2, ?_, midF.fr_nodup2,
          midF.fr_inj2, ?_, ?_, ?_, ?_, ?_⟩
        · intro n hn
          rcases List.mem_cons.mp hn with rfl | hold
          · exact ⟨c0, hlookF, hexact⟩
          · obtain ⟨dd, hdd, hl⟩ := inv.vis_dist n hold
            exact ⟨dd, midF.look_mono _ _ hdd, hl⟩
        · intro n hn d n' hd
          rcases List.mem_cons.mp hn with rfl | hold
          · rcases hrelaxF n' (mem_neighbours.mpr ⟨d, hd⟩) with hv |
              ⟨b, hb, hble⟩
            · exact Or.inl (List.mem_cons_of_mem _ hv)
            · exact Or.inr ⟨c0, b, hlookF, hb, hble⟩
          · rcases inv.vis_relax n hold d n' hd with hv | ⟨dn, b, h1, h2, h3⟩
            · exact Or.inl (List.mem_cons_of_mem _ hv)
            · exact Or.inr ⟨dn, b, midF.look_mono _ _ h1,
                midF.look_mono _ _ h2, h3⟩
        · intro n hn
          rcases List.mem_cons.mp hn with rfl | hold
          · exact hacc
          · exact inv.vis_unacc n hold
        · intro e he
          obtain ⟨hnv, hne0⟩ := midF.fr_unvis2 e he
          intro hmem
          rcases List.mem_cons.mp hmem with heq | hmem2
          · exact hne0 heq
          · exact hnv hmem2
        · intro n hn b hb
          have hns : n ≠ n0 ∧ n ∉ s.visited := by
            constructor
            · intro heq
              exact hn (heq ▸ List.mem_cons_self _ _)
            · intro hmem
              exact hn (List.mem_cons_of_mem _ hmem)
          exact midF.cover2 n hns.2 hns.1 b hb
        · intro n b hb
          rcases midF.look_new n b hb with hold | ⟨hs0n, hnv, ⟨d, hd⟩, hbeq⟩
          · exact inv.bc_sound n b hold
          · refine ⟨?_, ?_, PF.hstep_inB _ _ _ hd⟩
            · have hr0 : ReachCost m n0 c0 := (inv.bc_sound _ _ hlook0).1
              have := StepsFrom.tail hr0 hd
              rw [hbeq]
              exact this
            · exact PF.hclosure _ _ _ (inv.bc_sound _ _ hlook0).2.1 hd
        · intro n b hb
          rcases midF.look_new n b hb with hold | ⟨hs0n, hnv, ⟨d, hd⟩, hbeq⟩
          · rcases inv.bc_parent n b hold with hstart |
              ⟨n1, d1, c1, hv, hs1, hc1, heq⟩
            · exact Or.inl hstart
            · exact Or.inr ⟨n1, d1, c1, List.mem_cons_of_mem _ hv, hs1,
                midF.look_mono _ _ hc1, heq⟩
          · exact Or.inr ⟨n0, d, c0, List.mem_cons_self _ _, hd, hlookF,
              hbeq⟩
        · exact midF.look_mono _ _ inv.bc_start
        · intro n hn e he dn hnh hlookn hheurn
          have hf0e : oLE f0 e.1 := by
            obtain ⟨newl, hsh, hnewl⟩ := midF.fr_shape
            rw [hsh] at he
            rcases List.mem_append.mp he with hnew | hrst
            · obtain ⟨hE, hhE, heE, hlkE⟩ := midF.fr_entry2 e
                (by rw [hsh]; exact List.mem_append_left _ hnew)
              rcases midF.look_new _ _ hlkE with hold | ⟨-, -, ⟨d', hd'⟩, hcost⟩
              · rw [hnewl e hnew] at hold
                cases hold
              · have hcons := PF.hH_cons _ _ _ hd' hn0B h0 hE hh0 hhE
                rw [hf0, heE, hcost]
                exact oLE_some_some.mpr (by omega)
            · exact hminF e (hsubrest e hrst)
          rcases List.mem_cons.mp hn with rfl | hold
          · rw [hlookF] at hlookn
            injection hlookn with hlookn
            rw [hh0] at hheurn
            injection hheurn with hheurn
            rw [← hlookn, ← hheurn, ← hf0]
            exact hf0e
          · have holdlook : alookup s.best_cost n = some dn := by
              rcases midF.look_new n dn hlookn with h | ⟨-, hnv, -, -⟩
              · exact h
              · exact absurd hold hnv
            exact oLE_trans (inv.fmono n hold _ he0 dn hnh holdlook hheurn)
              (hf0 ▸ hf0e)
      · have hlen : rest.length + 1 = s.frontier.length := by
          rw [hrest]
          exact length_erase_of_mem2 he0
        rw [aPhi, aPhi]
        dsimp only
        omega

/-- When the popped minimal entry is an acceptable terminal, its cost is
the least goal cost. -/
theorem pop_goal {α : Type} [DecidableEq α] [SearchNode α] {m : Map}
    (PF : PolicyFacts α m) {s0 : SState α} (inv : AInv m s0)
    {f0 : Option Nat} {c0 : Nat} {n0 : α} {rest : List (Entry α)}
    (hpop : popMin cmpEntry s0.frontier = some ((f0, c0, n0), rest))
    (hacc : SearchNode.pos n0 = m.target ∧
      SearchNode.can_stop n0 = true) :
    IsLeast (GoalCosts α m) c0 := by
  have he0 := (popMin_eq _ hpop).1
  have hmin := popMin_fst_le Prod.fst cmpEntry
    (fun x y h => cmpEntry_fst_lt h) (fun x y h => cmpEntry_fst_nlt h) hpop
  obtain ⟨h0, hh0, hf0, hlook0⟩ := inv.fr_entry _ he0
  dsimp only at hh0 hf0 hlook0
  rw [hacc.1, PF.hH_goal] at hh0
  injection hh0 with hh0
  subst hh0
  constructor
  · exact ⟨n0, (inv.bc_sound _ _ hlook0).1, hacc.1, hacc.2⟩
  · intro c hc
    obtain ⟨ng, hreach, htar, hstop⟩ := hc
    rcases across PF inv hreach with hv | ⟨e, he, c2, hsteps, hle⟩
    · exact absurd ⟨htar, hstop⟩ (inv.vis_unacc ng hv)
    · obtain ⟨hE, hhE, hfe, hlke⟩ := inv.fr_entry e he
      have heB : m.grid.inB (SearchNode.pos e.2.2) :=
        (inv.bc_sound _ _ hlke).2.2
      have hg0 : m.heurAt (SearchNode.pos ng) = some 0 := by
        rw [htar]
        exact PF.hH_goal
      have htel := steps_heur_le PF hsteps heB hE 0 hhE hg0
      have hm := hmin e he
      rw [hf0, hfe] at hm
      have hle2 := oLE_some_some.mp hm
      omega

/-- With an empty frontier, no legal path reaches an acceptable terminal. -/
theorem empty_no_goal {α : Type} [DecidableEq α] [SearchNode α] {m : Map}
    (PF : PolicyFacts α m) {s0 : SState α} (inv : AInv m s0)
    (hfe : s0.frontier = []) : GoalCosts α m = ∅ := by
  rw [Set.eq_empty_iff_forall_not_mem]
  intro c hc
  obtain ⟨ng, hreach, htar, hstop⟩ := hc
  rcases across PF inv hreach with hv | ⟨e, he, -, -, -⟩
  · exact absurd ⟨htar, hstop⟩ (inv.vis_unacc ng hv)
  · rw [hfe] at he
    exact absurd he (List.not_mem_nil e)

/-- Master theorem of the A* loop: from any state satisfying the loop
invariant, with fuel above the termination measure, the loop terminates
and its answer is `some` of the least goal cost exactly when one exists
and `none` exactly when there is no goal cost. -/
theorem aLoop_exact {α : Type} [DecidableEq α] [SearchNode α] {m : Map}
    (PF : PolicyFacts α m) :
    ∀ (fuel : Nat) (s : SState α), AInv m s → aPhi m s < fuel →
      ∃ res, searchLoop m fuel s = some res ∧
        (∀ c, res = some c ↔ IsLeast (GoalCosts α m) c) ∧
        (res = none ↔ GoalCosts α m = ∅) := by
  intro fuel
  induction fuel with
  | zero =>
    intro s inv hphi
    omega
  | succ f ih =>
    intro s inv hphi
    cases hso : stepOnce m s with
    | done r =>
      have hgoal : searchLoop m (f + 1) s = some r := by
        rw [searchLoop, hso]
      rw [stepOnce] at hso
      cases hpop : popMin cmpEntry s.frontier with
      | none =>
        rw [hpop] at hso
        injection hso with hso
        have hempty := empty_no_goal PF inv (popMin_none _ hpop)
        refine ⟨r, hgoal, ?_, ?_⟩
        · intro c
          constructor
          · intro hc
            rw [← hso] at hc
            cases hc
          · intro hl
            rw [hempty] at hl
            exact absurd hl.1 (Set.not_mem_empty c)
        · rw [← hso]
          exact ⟨fun _ => hempty, fun _ => rfl⟩
      | some pr =>
        obtain ⟨⟨f0, c0, n0⟩, rest⟩ := pr
        rw [hpop] at hso
        dsimp only at hso
        by_cases hacc : SearchNode.pos n0 = m.target ∧
            SearchNode.can_stop n0 = true
        · rw [if_pos hacc] at hso
          injection hso with hso
          have hgl := pop_goal PF inv hpop hacc
          refine ⟨r, hgoal, ?_, ?_⟩
          · intro c
            rw [← hso]
            constructor
            · intro hc
              injection hc with hc
              rw [← hc]
              exact hgl
            · intro hl
              have : c = c0 := le_antisymm (hl.2 hgl.1) (hgl.2 hl.1)
              rw [this]
          · rw [← hso]
            constructor
            · intro hc
              cases hc
            · intro hempty
              rw [hempty] at hgl
              exact absurd hgl.1 (Set.not_mem_empty c0)
        · rw [if_neg hacc] at hso
          exact StepResult.noConfusion hso
    | next s' =>
      obtain ⟨inv', hphi'⟩ := ainv_step PF inv hso
      obtain ⟨res, hres, h1, h2⟩ := ih s' inv' (by omega)
      refine ⟨res, ?_, h1, h2⟩
      rw [searchLoop, hso]
      exact hres

/-- The initial search state satisfies the loop invariant. -/
theorem ainv_init {α : Type} [DecidableEq α] [inst : SearchNode α]
    {m : Map} (PF : PolicyFacts α m) : AInv m (initState inst m) := by
  obtain ⟨h0, hh0⟩ := PF.hH_total (0, 0) PF.hstart_inB
  have hsn : (SearchNode.new ((0 : Nat), (0 : Nat)) Direction.South : α) =
      startNode α := rfl
  have hbc : (initState inst m).best_cost =
      [(startNode α, 0)] := by
    rw [initState, hsn]
  have hfr : (initState inst m).frontier =
      [(m.heurAt (0, 0), 0, startNode α)] := by
    rw [initState, hsn]
  have hvs : (initState inst m).visited = ([] : List α) := rfl
  have hlook : alookup (initState inst m).best_cost (startNode α) =
      some 0 := by
    rw [hbc, alookup, if_pos rfl]
  have hpn : m.heurAt (SearchNode.pos (startNode α)) = some h0 := by
    rw [PF.hpos_new]
    exact hh0
  refine ⟨?_, ?_, ?_, ?_, ?_, ?_, ?_, ?_, ?_, ?_, hlook, ?_⟩
  · intro n hn
    rw [hvs] at hn
    exact absurd hn (List.not_mem_nil n)
  · intro n hn
    rw [hvs] at hn
    exact absurd hn (List.not_mem_nil n)
  · intro n hn
    rw [hvs] at hn
    exact absurd hn (List.not_mem_nil n)
  · intro e he
    rw [hfr] at he
    rcases List.mem_cons.mp he with rfl | he2
    · refine ⟨h0, ?_, ?_, ?_⟩
      · exact hpn
      · dsimp only
        rw [hh0, Nat.zero_add]
      · exact hlook
    · exact absurd he2 (List.not_mem_nil e)
  · intro e he
    rw [hvs]
    exact List.not_mem_nil e.2.2
  · rw [hfr]
    exact List.nodup_cons.mpr ⟨List.not_mem_nil _, List.nodup_nil⟩
  · intro e1 he1 e2 he2 hnn
    rw [hfr] at he1 he2
    rcases List.mem_cons.mp he1 with rfl | he1b
    · rcases List.mem_cons.mp he2 with rfl | he2b
      · rfl
      · exact absurd he2b (List.not_mem_nil e2)
    · exact absurd he1b (List.not_mem_nil e1)
  · intro n hn b hb
    rw [hbc, alookup] at hb
    by_cases heq : startNode α = n
    · rw [if_pos heq] at hb
      injection hb with hb
      refine ⟨m.heurAt (0, 0), ?_⟩
      rw [hfr, ← heq, ← hb]
      exact List.mem_cons_self _ _
    · rw [if_neg heq] at hb
      cases hb
  · intro n b hb
    rw [hbc, alookup] at hb
    by_cases heq : startNode α = n
    · rw [if_pos heq] at hb
      injection hb with hb
      subst hb
      rw [← heq]
      refine ⟨StepsFrom.refl, PF.hstart_univ, ?_⟩
      rw [PF.hpos_new]
      exact PF.hstart_inB
    · rw [if_neg heq] at hb
      cases hb
  · intro n b hb
    rw [hbc, alookup] at hb
    by_cases heq : startNode α = n
    · exact Or.inl heq.symm
    · rw [if_neg heq] at hb
      cases hb
  · intro n hn
    rw [hvs] at hn
    exact absurd hn (List.not_mem_nil n)

/-- The fuel allotted by `searchFuel` exceeds the initial measure. -/
theorem aPhi_init_lt {α : Type} [DecidableEq α] [inst : SearchNode α]
    (m : Map) : aPhi m (initState inst m) < searchFuel inst m := by
  rw [aPhi, searchFuel]
  have h := List.length_filter_le
    (fun n => (alookup (initState inst m).best_cost n).isNone)
    (SearchNode.univAll (α := α) m)
  rw [remUniv]
  have hfr : (initState inst m).frontier.length = 1 := rfl
  omega

/-- Full correctness of `Map::cheapest_path_cost` for any policy
satisfying `PolicyFacts`: the engine returns `some` of the least goal
cost exactly when a goal is reachable, and `none` exactly when none is. -/
theorem cheapest_exact {α : Type} [DecidableEq α] [inst : SearchNode α]
    {m : Map} (PF : PolicyFacts α m) :
    (∀ c, cheapest_path_cost α m = some c ↔ IsLeast (GoalCosts α m) c) ∧
      (cheapest_path_cost α m = none ↔ GoalCosts α m = ∅) := by
  obtain ⟨res, hres, h1, h2⟩ := aLoop_exact PF (searchFuel inst m)
    (initState inst m) (ainv_init PF) (aPhi_init_lt m)
  have hj : (Option.join (some res)) = res := rfl
  rw [cheapest_path_cost, hres, hj]
  exact ⟨h1, h2⟩

theorem direction_mem_all (d : Direction) : d ∈ Direction.all := by
  cases d <;> simp [Direction.all]

theorem crucible_univ_mem {m : Map} (n : Crucible)
    (h1 : n.pos.1 ≤ m.grid.height) (h2 : n.pos.2 ≤ m.grid.width)
    (h3 : n.remaining_steps < 4) : n ∈ Crucible.univList m := by
  obtain ⟨⟨r, c⟩, dd, k⟩ := n
  simp only [Crucible.univList, List.mem_flatMap, List.mem_range,
    List.mem_map]
  exact ⟨r, by simp at h1; omega, c, by simp at h2; omega, dd,
    direction_mem_all dd, k, by simp at h3; omega, rfl⟩

theorem crucible_univ_bound {m : Map} {n : Crucible}
    (h : n ∈ Crucible.univList m) : n.remaining_steps < 4 := by
  obtain ⟨⟨r, c⟩, dd, k⟩ := n
  simp only [Crucible.univList, List.mem_flatMap, List.mem_range,
    List.mem_map] at h
  obtain ⟨r2, -, c2, -, d2, -, k2, hk, heq⟩ := h
  rw [Crucible.mk.injEq] at heq
  obtain ⟨-, -, hkk⟩ := heq
  show k < 4
  omega

theorem ultra_univ_mem {m : Map} (n : UltraCrucible)
    (h1 : n.pos.1 ≤ m.grid.height) (h2 : n.pos.2 ≤ m.grid.width)
    (h3 : n.consecutive_steps < 11) : n ∈ UltraCrucible.univList m := by
  obtain ⟨⟨r, c⟩, dd, k⟩ := n
  simp only [UltraCrucible.univList, List.mem_flatMap, List.mem_range,
    List.mem_map]
  exact ⟨r, by simp at h1; omega, c, by simp at h2; omega, dd,
    direction_mem_all dd, k, by simp at h3; omega, rfl⟩

theorem ultra_univ_bound {m : Map} {n : UltraCrucible}
    (h : n ∈ UltraCrucible.univList m) : n.consecutive_steps < 11 := by
  obtain ⟨⟨r, c⟩, dd, k⟩ := n
  simp only [UltraCrucible.univList, List.mem_flatMap, List.mem_range,
    List.mem_map] at h
  obtain ⟨r2, -, c2, -, d2, -, k2, hk, heq⟩ := h
  rw [UltraCrucible.mk.injEq] at heq
  obtain ⟨-, -, hkk⟩ := heq
  show k < 11
  omega

theorem ultra_step_adjacent {m : Map} {nm n' : UltraCrucible}
    {d : Direction} (hstep : UltraCrucible.make_step nm m d = some n')
    (hq : m.grid.inB nm.pos) : Adjacent m.grid n'.pos nm.pos := by
  obtain ⟨hn, -, -⟩ := (ultra_make_step_char m nm d).2.1 n' hstep
  rw [Map.get_neighbour_pos_eq_some] at hn
  obtain ⟨hrel, hb1, hb2⟩ := hn
  rw [Prod.ext_iff] at hrel
  dsimp only at hrel
  refine ⟨hq, ?_⟩
  cases d <;>
  · rw [Direction.dy, Direction.dx] at hrel
    omega

/-- For maps built by the program (heuristic table computed by the backward
Dijkstra), the heuristic at every in-bounds cell is present and is the
least unconstrained cost to the target, and it vanishes at the target. -/
theorem heur_exact_bundle {m : Map} (hwf : m.grid.WF)
    (hheur : m.heur_cost_to_target = findLowestCostToTarget m.grid) :
    (∀ p : Pos, m.grid.inB p → ∃ h, m.heurAt p = some h ∧
      IsLeast {c | UPath m.grid p c} h) ∧ m.heurAt m.target = some 0 := by
  have h1 : ∀ p : Pos, m.grid.inB p → ∃ h, m.heurAt p = some h ∧
      IsLeast {c | UPath m.grid p c} h := by
    intro p hp
    obtain ⟨hr, -⟩ := findLowest_exact hwf p hp
    obtain ⟨b, hb, hl⟩ := hr (reach_all hwf p hp)
    refine ⟨b, ?_, ?_⟩
    · rw [Map.heurAt, hheur]
      exact hb
    · have hset : {c | UPath m.grid p c} = {c | HReach m.grid p c} :=
        Set.ext fun c => upath_iff_hreach
      rw [hset]
      exact hl
  refine ⟨h1, ?_⟩
  have htB : m.grid.inB m.target := by
    obtain ⟨hh1, hw1, -, -⟩ := hwf
    refine ⟨?_, ?_⟩
    · show m.grid.height - 1 < m.grid.height
      omega
    · show m.grid.width - 1 < m.grid.width
      omega
  obtain ⟨h0, hh0, hl0⟩ := h1 m.target htB
  have hz : (0 : Nat) ∈ {c | UPath m.grid m.target c} := by
    show UPath m.grid m.target 0
    have ht : m.target = (m.grid.height - 1, m.grid.width - 1) := rfl
    rw [ht]
    exact UPath.here
  have hle0 : h0 ≤ 0 := hl0.2 hz
  have hz0 : h0 = 0 := by omega
  rw [hz0] at hh0
  exact hh0

/-- The bounded-run policy satisfies all the policy facts on any map with
a well-formed grid and the program's heuristic table. -/
theorem crucible_facts {m : Map} (hwf : m.grid.WF)
    (hheur : m.heur_cost_to_target = findLowestCostToTarget m.grid) :
    PolicyFacts Crucible m := by
  obtain ⟨hB, hgoal⟩ := heur_exact_bundle hwf hheur
  obtain ⟨hh1, hw1, -, -⟩ := hwf
  refine ⟨rfl, ⟨hh1, hw1⟩, fun n => rfl, ?_, ?_, hgoal, ?_, ?_, ?_, ?_, ?_⟩
  · intro p hp
    obtain ⟨h, hh, -⟩ := hB p hp
    exact ⟨h, hh⟩
  · intro n d n' hstep hnB h h' hh hh'
    have hstep' : Crucible.make_step n m d = some n' := hstep
    have hn'B : m.grid.inB (SearchNode.pos n') := by
      obtain ⟨a, b, -⟩ := (make_step_bounds_char m).1 n d n' hstep'
      exact ⟨a, b⟩
    have hadj : Adjacent m.grid n'.pos n.pos :=
      crucible_step_adjacent hstep' hnB
    obtain ⟨bn, hbn, hln⟩ := hB (SearchNode.pos n) hnB
    obtain ⟨bn', hbn', hln'⟩ := hB (SearchNode.pos n') hn'B
    rw [hh] at hbn
    injection hbn with hbn
    rw [hh'] at hbn'
    injection hbn' with hbn'
    have hmem : UPath m.grid n.pos (bn' + m.grid.get n'.pos) :=
      UPath.step hadj hln'.1
    have hle := hln.2 hmem
    have hgg : m.grid.get (SearchNode.pos n') = m.grid.get n'.pos := rfl
    omega
  · intro n d n' hstep
    obtain ⟨a, b, -⟩ := (make_step_bounds_char m).1 n d n' hstep
    exact ⟨a, b⟩
  · intro a b d1 d2 n' h1 h2
    obtain ⟨hna, hda, -⟩ := (crucible_make_step_char m a d1).2 n' h1
    obtain ⟨hnb, hdb, -⟩ := (crucible_make_step_char m b d2).2 n' h2
    have hd12 : d1 = d2 := by rw [← hda, ← hdb]
    subst hd12
    rw [Map.get_neighbour_pos_eq_some] at hna hnb
    obtain ⟨hra, -, -⟩ := hna
    obtain ⟨hrb, -, -⟩ := hnb
    rw [Prod.ext_iff] at hra hrb
    dsimp only at hra hrb
    show a.pos = b.pos
    rw [Prod.ext_iff]
    constructor <;> omega
  · intro n d n' hstep heq
    obtain ⟨hn, hd, -⟩ := (crucible_make_step_char m n d).2 n' hstep
    rw [heq] at hn hd
    have hstart : startNode Crucible =
        (⟨(0, 0), Direction.South, 3⟩ : Crucible) := rfl
    rw [hstart] at hn hd
    dsimp only at hd
    subst hd
    rw [Map.get_neighbour_pos_eq_some] at hn
    obtain ⟨hr, -, -⟩ := hn
    rw [Prod.ext_iff] at hr
    dsimp only [Direction.dy] at hr
    omega
  · exact crucible_univ_mem _ (Nat.zero_le _) (Nat.zero_le _) (by decide)
  · intro n d n' hn hstep
    have hb := (make_step_bounds_char m).1 n d n' hstep
    obtain ⟨-, -, hrs⟩ := (crucible_make_step_char m n d).2 n' hstep
    have hbound := crucible_univ_bound hn
    refine crucible_univ_mem n' (by omega) (by omega) ?_
    rw [hrs]
    by_cases hcase : d = n.direction
    · rw [if_pos hcase]
      omega
    · rw [if_neg hcase]
      omega

/-- The minimum-run-with-cap policy satisfies all the policy facts on any
map with a well-formed grid and the program's heuristic table. -/
theorem ultra_facts {m : Map} (hwf : m.grid.WF)
    (hheur : m.heur_cost_to_target = findLowestCostToTarget m.grid) :
    PolicyFacts UltraCrucible m := by
  obtain ⟨hB, hgoal⟩ := heur_exact_bundle hwf hheur
  obtain ⟨hh1, hw1, -, -⟩ := hwf
  refine ⟨rfl, ⟨hh1, hw1⟩, fun n => rfl, ?_, ?_, hgoal, ?_, ?_, ?_, ?_, ?_⟩
  · intro p hp
    obtain ⟨h, hh, -⟩ := hB p hp
    exact ⟨h, hh⟩
  · intro n d n' hstep hnB h h' hh hh'
    have hstep' : UltraCrucible.make_step n m d = some n' := hstep
    have hn'B : m.grid.inB (SearchNode.pos n') := by
      obtain ⟨a, b, -⟩ := (make_step_bounds_char m).2 n d n' hstep'
      exact ⟨a, b⟩
    have hadj : Adjacent m.grid n'.pos n.pos :=
      ultra_step_adjacent hstep' hnB
    obtain ⟨bn, hbn, hln⟩ := hB (SearchNode.pos n) hnB
    obtain ⟨bn', hbn', hln'⟩ := hB (SearchNode.pos n') hn'B
    rw [hh] at hbn
    injection hbn with hbn
    rw [hh'] at hbn'
    injection hbn' with hbn'
    have hmem : UPath m.grid n.pos (bn' + m.grid.get n'.pos) :=
      UPath.step hadj hln'.1
    have hle := hln.2 hmem
    have hgg : m.grid.get (SearchNode.pos n') = m.grid.get n'.pos := rfl
    omega
  · intro n d n' hstep
    obtain ⟨a, b, -⟩ := (make_step_bounds_char m).2 n d n' hstep
    exact ⟨a, b⟩
  · intro a b d1 d2 n' h1 h2
    obtain ⟨hna, hda, -⟩ := (ultra_make_step_char m a d1).2.1 n' h1
    obtain ⟨hnb, hdb, -⟩ := (ultra_make_step_char m b d2).2.1 n' h2
    have hd12 : d1 = d2 := by rw [← hda, ← hdb]
    subst hd12
    rw [Map.get_neighbour_pos_eq_some] at hna hnb
    obtain ⟨hra, -, -⟩ := hna
    obtain ⟨hrb, -, -⟩ := hnb
    rw [Prod.ext_iff] at hra hrb
    dsimp only at hra hrb
    show a.pos = b.pos
    rw [Prod.ext_iff]
    constructor <;> omega
  · intro n d n' hstep heq
    obtain ⟨-, -, hcnt⟩ := (ultra_make_step_char m n d).2.1 n' hstep
    rw [heq] at hcnt
    have hstart : (startNode UltraCrucible).consecutive_steps = 0 := rfl
    rw [hstart] at hcnt
    by_cases hcase : d = n.direction
    · rw [if_pos hcase] at hcnt
      omega
    · rw [if_neg hcase] at hcnt
      omega
  · exact ultra_univ_mem _ (Nat.zero_le _) (Nat.zero_le _) (by decide)
  · intro n d n' hn hstep
    have hstep' : UltraCrucible.make_step n m d = some n' := hstep
    have hb := (make_step_bounds_char m).2 n d n' hstep'
    obtain ⟨hiff, hval, -⟩ := ultra_make_step_char m n d
    obtain ⟨-, -, hcnt⟩ := hval n' hstep'
    have hguard := (hiff.mp (by rw [hstep']; rfl)).2.2.1
    have hbound := ultra_univ_bound hn
    refine ultra_univ_mem n' (by omega) (by omega) ?_
    rw [hcnt]
    by_cases hcase : d = n.direction
    · rw [if_pos hcase]
      have := hguard hcase
      omega
    · rw [if_neg hcase]
      omega

/-- C1: for every map carrying a well-formed digit grid and the heuristic
table the program computes for it, and for both movement policies, the A*
engine returns `some c` exactly when `c` is the minimum total cost over
all legal paths from the start node at the top-left cell to an acceptable
terminal node at the bottom-right cell (the cost of a path being the sum
of the entry costs of the cells entered, the start cell excluded), and
returns `none` exactly when no legal path reaches an acceptable terminal
node. -/
theorem cheapest_path_cost_exact :
    ∀ m : Map, m.grid.WF →
      m.heur_cost_to_target = findLowestCostToTarget m.grid →
      ((∀ c, m.cheapest_path_cost_normal = some c ↔
          IsLeast (GoalCosts Crucible m) c) ∧
        (m.cheapest_path_cost_normal = none ↔ GoalCosts Crucible m = ∅)) ∧
      ((∀ c, m.cheapest_path_cost_ultra = some c ↔
          IsLeast (GoalCosts UltraCrucible m) c) ∧
        (m.cheapest_path_cost_ultra = none ↔
          GoalCosts UltraCrucible m = ∅)) :=
  fun m hwf hh => ⟨cheapest_exact (crucible_facts hwf hh),
    cheapest_exact (ultra_facts hwf hh)⟩

/-- Witness for C1 on the 2-by-2 map: the bounded-run search returns 6,
which is therefore the least cost over all legal bounded-run paths. -/
theorem cheapest_path_cost_exact_witness :
    map2x2.cheapest_path_cost_normal = some 6 ∧
      IsLeast (GoalCosts Crucible map2x2) 6 :=
  ⟨rfl, ((cheapest_path_cost_exact map2x2
    ⟨by decide, by decide, by decide, by decide⟩ rfl).1.1 6).mp rfl⟩

/-- From any state satisfying the loop invariant, no iteration of the
search loop ever expands a node that is already visited. -/
theorem stale_zero {α : Type} [DecidableEq α] [SearchNode α] {m : Map}
    (PF : PolicyFacts α m) :
    ∀ (k : Nat) (s : SState α), AInv m s → staleExpansions m k s = 0 := by
  intro k
  induction k with
  | zero =>
    intro s inv
    rfl
  | succ k ih =>
    intro s inv
    rw [staleExpansions]
    cases hso : stepOnce m s with
    | done r => rfl
    | next s' =>
      dsimp only
      obtain ⟨inv', -⟩ := ainv_step PF inv hso
      rw [ih s' inv']
      cases hpop : popMin cmpEntry s.frontier with
      | none => rfl
      | some pr =>
        obtain ⟨⟨f0, c0, n0⟩, rest⟩ := pr
        have hnv : n0 ∉ s.visited := inv.fr_unvis _ (popMin_eq _ hpop).1
        dsimp only
        rw [if_neg hnv]

/-- C6: in the search loop (for both policies, on any map carrying a
well-formed grid and the program's heuristic table), the node of a popped
frontier entry is never already in the visited set, so a node marked
visited is never expanded into successors again: no node is ever
revisited, and a stale pop never reaches the expansion step. -/
theorem no_stale_expansions :
    ∀ m : Map, m.grid.WF →
      m.heur_cost_to_target = findLowestCostToTarget m.grid →
      ∀ k : Nat,
        staleExpansions m k
          (initState (inferInstance : SearchNode Crucible) m) = 0 ∧
        staleExpansions m k
          (initState (inferInstance : SearchNode UltraCrucible) m) = 0 :=
  fun m hwf hh k =>
    ⟨stale_zero (crucible_facts hwf hh) k _
        (ainv_init (crucible_facts hwf hh)),
      stale_zero (ultra_facts hwf hh) k _
        (ainv_init (ultra_facts hwf hh))⟩

/-- Witness for C6: the first three iterations of both searches on the
2-by-2 map expand no already-visited node. -/
theorem no_stale_expansions_witness :
    staleExpansions map2x2 3
        (initState (inferInstance : SearchNode Crucible) map2x2) = 0 ∧
      staleExpansions map2x2 3
        (initState (inferInstance : SearchNode UltraCrucible) map2x2) = 0 :=
  no_stale_expansions map2x2 ⟨by decide, by decide, by decide, by decide⟩
    rfl 3

theorem get_neighbour_pos_congr {m m2 : Map}
    (hh : m.grid.height = m2.grid.height)
    (hw : m.grid.width = m2.grid.width) (p : Pos) (d : Direction) :
    m.get_neighbour_pos p d = m2.get_neighbour_pos p d := by
  rw [Map.get_neighbour_pos, Map.get_neighbour_pos, hh, hw]

theorem crucible_make_step_congr {m m2 : Map}
    (hh : m.grid.height = m2.grid.height)
    (hw : m.grid.width = m2.grid.width) (n : Crucible) (d : Direction) :
    Crucible.make_step n m d = Crucible.make_step n m2 d := by
  rw [Crucible.make_step, Crucible.make_step,
    get_neighbour_pos_congr hh hw]

theorem ultra_make_step_congr {m m2 : Map}
    (hh : m.grid.height = m2.grid.height)
    (hw : m.grid.width = m2.grid.width) (n : UltraCrucible)
    (d : Direction) :
    UltraCrucible.make_step n m d = UltraCrucible.make_step n m2 d := by
  rw [UltraCrucible.make_step, UltraCrucible.make_step,
    get_neighbour_pos_congr hh hw]

/-- Legal walks transfer between maps with equal-shape grids, with a cost
that does not exceed the original when entry costs only grow. -/
theorem steps_transfer_le {α : Type} [DecidableEq α] [SearchNode α]
    {m m2 : Map}
    (hcongr : ∀ (n : α) (d : Direction),
      SearchNode.make_step n m d = SearchNode.make_step n m2 d)
    (hinB : ∀ (n : α) (d : Direction) (n' : α),
      SearchNode.make_step n m2 d = some n' →
      m2.grid.inB (SearchNode.pos n'))
    (hle : ∀ p : Pos, m2.grid.inB p → m.grid.get p ≤ m2.grid.get p) :
    ∀ {n₀ n : α} {c2 : Nat}, StepsFrom m2 n₀ n c2 →
      ∃ c, c ≤ c2 ∧ StepsFrom m n₀ n c := by
  intro n₀ n c2 h
  induction h with
  | refl => exact ⟨0, le_refl 0, StepsFrom.refl⟩
  | tail hs hstep ih =>
    rename_i np cp d n'
    obtain ⟨c, hc, hsm⟩ := ih
    refine ⟨c + m.grid.get (SearchNode.pos n'), ?_,
      StepsFrom.tail hsm (by rw [hcongr]; exact hstep)⟩
    have := hle _ (hinB _ _ _ hstep)
    omega

/-- Legal walks transfer between maps with equal-shape grids (existence
only). -/
theorem steps_transfer_ex {α : Type} [DecidableEq α] [SearchNode α]
    {m m2 : Map}
    (hcongr : ∀ (n : α) (d : Direction),
      SearchNode.make_step n m d = SearchNode.make_step n m2 d) :
    ∀ {n₀ n : α} {c2 : Nat}, StepsFrom m2 n₀ n c2 →
      ∃ c, StepsFrom m n₀ n c := by
  intro n₀ n c2 h
  induction h with
  | refl => exact ⟨0, StepsFrom.refl⟩
  | tail hs hstep ih =>
    rename_i np cp d n'
    obtain ⟨c, hsm⟩ := ih
    exact ⟨c + m.grid.get (SearchNode.pos n'),
      StepsFrom.tail hsm (by rw [hcongr]; exact hstep)⟩

/-- Monotonicity of the engine between two maps whose grids share a shape
and whose entry costs only grow: the reported minimum never decreases and
reachability is unchanged. -/
theorem cheapest_mono_general {α : Type} [DecidableEq α] [SearchNode α]
    {m m2 : Map} (PF : PolicyFacts α m) (PF2 : PolicyFacts α m2)
    (hcongr : ∀ (n : α) (d : Direction),
      SearchNode.make_step n m d = SearchNode.make_step n m2 d)
    (hle : ∀ p : Pos, m2.grid.inB p → m.grid.get p ≤ m2.grid.get p)
    (htar : m.target = m2.target) :
    (∀ c c2, cheapest_path_cost α m = some c →
      cheapest_path_cost α m2 = some c2 → c ≤ c2) ∧
      (cheapest_path_cost α m = none ↔ cheapest_path_cost α m2 = none) := by
  obtain ⟨hsome, hnone⟩ := cheapest_exact PF
  obtain ⟨hsome2, hnone2⟩ := cheapest_exact PF2
  have hinB2 := PF2.hstep_inB
  constructor
  · intro c c2 hc hc2
    have hl := (hsome c).mp hc
    have hl2 := (hsome2 c2).mp hc2
    obtain ⟨ng, hreach2, htarg, hstop⟩ := hl2.1
    obtain ⟨cT, hcT, hsm⟩ := steps_transfer_le hcongr hinB2 hle hreach2
    have hmemG : cT ∈ GoalCosts α m :=
      ⟨ng, hsm, by rw [htar]; exact htarg, hstop⟩
    exact le_trans (hl.2 hmemG) hcT
  · constructor
    · intro hn
      rw [hnone] at hn
      rw [hnone2]
      rw [Set.eq_empty_iff_forall_not_mem] at hn ⊢
      intro c2 hc2
      obtain ⟨ng, hreach2, htarg, hstop⟩ := hc2
      obtain ⟨cT, hsm⟩ := steps_transfer_ex hcongr hreach2
      exact hn cT ⟨ng, hsm, by rw [htar]; exact htarg, hstop⟩
    · intro hn
      rw [hnone2] at hn
      rw [hnone]
      rw [Set.eq_empty_iff_forall_not_mem] at hn ⊢
      intro c hc
      obtain ⟨ng, hreach, htarg, hstop⟩ := hc
      obtain ⟨cT, hsm⟩ := steps_transfer_ex
        (fun n d => (hcongr n d).symm) hreach
      exact hn cT ⟨ng, hsm, by rw [← htar]; exact htarg, hstop⟩

/-- C7: for every pair of well-formed digit grids of the same shape that
agree everywhere except at one cell, where the second grid's cost is
strictly larger, and for both movement policies: the minimum total cost
the search reports on the second grid is at least the one reported on the
first, and reachability is unchanged. -/
theorem single_cell_increase_monotone :
    ∀ (g g2 : GridA) (p0 : Pos), g.WF → g2.WF →
      g2.height = g.height → g2.width = g.width →
      (∀ p : Pos, g.inB p → p ≠ p0 → g2.get p = g.get p) →
      g.get p0 < g2.get p0 →
      ((∀ c c2, (Map.ofGrid g).cheapest_path_cost_normal = some c →
          (Map.ofGrid g2).cheapest_path_cost_normal = some c2 → c ≤ c2) ∧
        ((Map.ofGrid g).cheapest_path_cost_normal = none ↔
          (Map.ofGrid g2).cheapest_path_cost_normal = none)) ∧
      ((∀ c c2, (Map.ofGrid g).cheapest_path_cost_ultra = some c →
          (Map.ofGrid g2).cheapest_path_cost_ultra = some c2 → c ≤ c2) ∧
        ((Map.ofGrid g).cheapest_path_cost_ultra = none ↔
          (Map.ofGrid g2).cheapest_path_cost_ultra = none)) := by
  intro g g2 p0 hwf hwf2 hh hw heqoff hlt
  have hgr : (Map.ofGrid g).grid = g := rfl
  have hgr2 : (Map.ofGrid g2).grid = g2 := rfl
  have hhm : (Map.ofGrid g).grid.height = (Map.ofGrid g2).grid.height := by
    rw [hgr, hgr2, hh]
  have hwm : (Map.ofGrid g).grid.width = (Map.ofGrid g2).grid.width := by
    rw [hgr, hgr2, hw]
  have htar : (Map.ofGrid g).target = (Map.ofGrid g2).target := by
    rw [Map.target, Map.target, hhm, hwm]
  have hle : ∀ p : Pos, (Map.ofGrid g2).grid.inB p →
      (Map.ofGrid g).grid.get p ≤ (Map.ofGrid g2).grid.get p := by
    intro p hp
    rw [hgr2] at hp
    by_cases hpp : p = p0
    · subst hpp
      exact le_of_lt hlt
    · obtain ⟨h1, h2⟩ := hp
      have hpB : g.inB p := ⟨by omega, by omega⟩
      rw [hgr, hgr2, heqoff p hpB hpp]
  constructor
  · exact cheapest_mono_general (crucible_facts hwf rfl)
      (crucible_facts hwf2 rfl)
      (fun n d => crucible_make_step_congr hhm hwm n d) hle htar
  · exact cheapest_mono_general (ultra_facts hwf rfl)
      (ultra_facts hwf2 rfl)
      (fun n d => ultra_make_step_congr hhm hwm n d) hle htar

/-- Witness for C7: raising the bottom-right cost of the 2-by-2 grid from
4 to 5 raises the reported bounded-run minimum from 6 to 7. -/
theorem single_cell_increase_monotone_witness :
    (Map.ofGrid grid2x2).cheapest_path_cost_normal = some 6 ∧
      (Map.ofGrid grid2x2b).cheapest_path_cost_normal = some 7 ∧
      (6 : Nat) ≤ 7 := by
  refine ⟨rfl, rfl, ?_⟩
  refine (single_cell_increase_monotone grid2x2 grid2x2b (1, 1)
    ⟨by decide, by decide, by decide, by decide⟩
    ⟨by decide, by decide, by decide, by decide⟩ rfl rfl ?_
    (by decide)).1.1 6 7 rfl rfl
  intro p hpB hne
  obtain ⟨p1, p2⟩ := p
  obtain ⟨h1, h2⟩ := hpB
  have hb1 : p1 < 2 := h1
  have hb2 : p2 < 2 := h2
  interval_cases p1 <;> interval_cases p2 <;>
    first
      | rfl
      | exact absurd rfl hne

end SearchProof

end Aoc23D17
